import Mathlib

/-!
Verification development for the bugsybytes-api valuation engine.

The definitions below are shallow embeddings of the Python sources:
  * `src/src/service/portfolio/ledger_entry_generator.py` (lot ledger),
  * `src/src/service/gsec/util/cashflow_generator.py` (cashflow scheduler),
  * `src/src/service/util/holiday_calculator.py` (market calendar),
  * `src/src/service/util/xirr_calculator.py` (XIRR and target-price search),
  * `src/src/service/util/ytm_calculator.py` and
    `src/src/service/gsec/util/ytm_calculator.py` (yield to maturity).

Python `Decimal` and `float` arithmetic is modelled by exact rationals (ℚ);
`datetime.date` by its proleptic-Gregorian day number (ℤ, rata die);
fatal `sys.exit` / uncaught exceptions by `Except` / `Option` error values.
External inputs (the holiday table of the `holidays` package, the SciPy
root finder where a claim treats it as an oracle) are parameters.
-/

namespace BugsyBytes

/-! ## Lot ledger (`ledger_entry_generator.py`) -/

/-- Python `ROUND_HALF_UP` (ties away from zero) applied to a rational,
returning an integer. -/
def roundHalfAwayFromZero (q : ℚ) : ℤ :=
  if 0 ≤ q then ⌊q + 1/2⌋ else -⌊-q + 1/2⌋

/-- `fmt` (ledger_entry_generator.py line 60): quantize to exactly six
decimal places with `ROUND_HALF_UP`. -/
def fmt (q : ℚ) : ℚ :=
  (roundHalfAwayFromZero (q * 1000000) : ℚ) / 1000000

/-- One lot of the deque stored in `lots[(account, symbol)]`:
a dict `{"qty": Decimal, "cost": Decimal}` (line 238). -/
structure Lot where
  qty : ℚ
  cost : ℚ
deriving DecidableEq

instance : Inhabited Lot := ⟨⟨0, 0⟩⟩

/-- The `lot_selection_method` CSV column, after the normalisation
`(method or "FIFO").upper()` in `select_lot` (line 131): an empty or
missing method is already `FIFO` here, any unrecognised string is `OTHER`
(on which `select_lot` raises `ValueError`). -/
inductive LotMethod where
  | FIFO
  | LIFO
  | HIFO
  | OTHER
deriving DecidableEq

/-- Index scan used by Python `max(lots_deque, key=lambda l: l["cost"])`:
keep the current best and replace it only on a strictly greater cost, so
the first (oldest) lot attaining the maximal cost wins. -/
def hifoScan : List Lot → ℚ → ℕ → ℕ → ℕ
  | [], _, best, _ => best
  | l :: ls, bestCost, best, i =>
      if bestCost < l.cost then hifoScan ls l.cost i (i + 1)
      else hifoScan ls bestCost best (i + 1)

/-- `select_lot` (lines 127-140), by position in the deque.  Python returns
the lot object and the caller mutates the deque through it, so object
identity is deque position: `FIFO` is `lots_deque[0]`, `LIFO` is
`lots_deque[-1]`, `HIFO` is the first lot of maximal cost.  `none` models
the `ValueError` for an unsupported method (an empty deque never reaches
`select_lot`: the caller checks first). -/
def selectLotIdx (lots : List Lot) (method : LotMethod) : Option ℕ :=
  match method with
  | .FIFO => some 0
  | .LIFO => some (lots.length - 1)
  | .HIFO =>
      match lots with
      | [] => some 0
      | l :: ls => some (hifoScan ls l.cost 0 1)
  | .OTHER => none

theorem hifoScan_range (ls : List Lot) (bc : ℚ) (best i : ℕ) :
    hifoScan ls bc best i = best ∨
      (i ≤ hifoScan ls bc best i ∧ hifoScan ls bc best i < i + ls.length) := by
  induction ls generalizing bc best i with
  | nil => exact Or.inl rfl
  | cons l ls ih =>
      simp only [hifoScan]
      by_cases h : bc < l.cost
      · simp only [if_pos h]
        rcases ih l.cost i (i + 1) with h1 | h1
        · right
          simp only [h1, List.length_cons]
          omega
        · right
          simp only [List.length_cons]
          omega
      · simp only [if_neg h]
        rcases ih bc best (i + 1) with h1 | h1
        · exact Or.inl h1
        · right
          simp only [List.length_cons]
          omega

theorem selectLotIdx_lt (lots : List Lot) (method : LotMethod) (i : ℕ)
    (hne : lots ≠ []) (h : selectLotIdx lots method = some i) :
    i < lots.length := by
  have hlen : 0 < lots.length := List.length_pos.mpr hne
  cases method with
  | FIFO => simp only [selectLotIdx, Option.some_inj] at h; omega
  | LIFO => simp only [selectLotIdx, Option.some_inj] at h; omega
  | OTHER => simp [selectLotIdx] at h
  | HIFO =>
      cases lots with
      | nil => simp at hne
      | cons l ls =>
          simp only [selectLotIdx, Option.some_inj] at h
          rcases hifoScan_range ls l.cost 0 1 with h1 | h1 <;>
            simp only [List.length_cons] <;> omega

/-- Fatal outcomes of the sell loop: `sys.exit(1)` when the deque empties
before the sell is matched (lines 261-266), and the `ValueError` of
`select_lot` for an unsupported method (line 140). -/
inductive LedgerFatal where
  | insufficientShares
  | unsupportedMethod
deriving DecidableEq

/-- One emitted disposal posting (line 271-276): the quantity taken from
the selected lot and that lot's fixed cost per unit. -/
structure Disposal where
  take : ℚ
  cost : ℚ
deriving DecidableEq

/-- The sell loop of `csv_to_ledger_year_range` (lines 258-282):
`while remaining > 0`, abort if the bucket is empty, select a lot, take
`min(lot.qty, remaining)`, emit one posting, decrement both, and remove
the lot once its quantity reaches zero.  In the branch where the selected
lot strictly exceeds `remaining`, the loop body sets `remaining` to zero
and the next loop test exits, which is returned directly here.  Each
recursive call removes one lot, so the recursion is driven by a fuel
argument that `consumeLots` seeds with the deque length; the fuel-0 branch
sits behind the emptiness check and is never reached from that seed. -/
def consumeLotsAux (fuel : ℕ) (lots : List Lot) (remaining : ℚ)
    (method : LotMethod) : Except LedgerFatal (List Disposal × List Lot) :=
  if remaining ≤ 0 then .ok ([], lots)
  else if lots.isEmpty then .error .insufficientShares
  else
    match fuel with
    | 0 => .error .insufficientShares
    | fuel + 1 =>
        match selectLotIdx lots method with
        | none => .error .unsupportedMethod
        | some i =>
            let lot := lots.getD i default
            let d : Disposal := ⟨min lot.qty remaining, lot.cost⟩
            if lot.qty ≤ remaining then
              match consumeLotsAux fuel (lots.eraseIdx i)
                  (remaining - lot.qty) method with
              | .ok (ds, lots') => .ok (d :: ds, lots')
              | .error e => .error e
            else
              .ok ([d], lots.set i { lot with qty := lot.qty - remaining })

/-- The sell loop entered with the bucket's current deque. -/
def consumeLots (lots : List Lot) (remaining : ℚ) (method : LotMethod) :
    Except LedgerFatal (List Disposal × List Lot) :=
  consumeLotsAux lots.length lots remaining method

/-- One sorted CSV row restricted to a single `(equity_account, symbol)`
bucket.  A BUY row (lines 231-244) carries the share quantity `to_amt` and
the cash leg `from_amt`; a SELL row (lines 250-285) carries the share leg
`from_amt`, the proceeds `to_amt` and the row's `lot_selection_method`. -/
inductive BucketRow where
  | buy (toAmt fromAmt : ℚ)
  | sell (fromAmt toAmt : ℚ) (method : LotMethod)
deriving DecidableEq

/-- Processing of one sorted row against the bucket's deque:
BUY appends the lot `{"qty": qty, "cost": fmt(total_cost / qty)}`
(lines 232-238); SELL runs the lot-consumption loop on
`sell_qty = abs(from_amt)` (lines 251-282). -/
def applyBucketRow (lots : List Lot) : BucketRow →
    Except LedgerFatal (List Disposal × List Lot)
  | .buy toAmt fromAmt =>
      .ok ([], lots ++ [⟨toAmt, fmt (|fromAmt| / toAmt)⟩])
  | .sell fromAmt _ method =>
      consumeLots lots |fromAmt| method

/-- Replay of the sorted rows of one bucket, as `csv_to_ledger_year_range`
does over its per-year row loop (lines 208-301), keeping the deque state. -/
def replayBucket : List BucketRow → Except LedgerFatal (List Lot)
  | [] => .ok []
  | r :: rs =>
      match replayBucket rs with
      | .error e => .error e
      | .ok lots =>
          match applyBucketRow lots r with
          | .error e => .error e
          | .ok (_, lots') => .ok lots'

/-- Replay in input order (the source processes rows first to last; the
recursion above is most convenient tail-first, so we reverse). -/
def replayBucketFwd (rows : List BucketRow) : Except LedgerFatal (List Lot) :=
  replayBucket rows.reverse

/-- Sum of the live lot quantities of a bucket. -/
def lotSum (lots : List Lot) : ℚ :=
  (lots.map Lot.qty).sum

/-- Net quantity bought across a row list. -/
def netBought : List BucketRow → ℚ
  | [] => 0
  | .buy q _ :: rs => q + netBought rs
  | .sell _ _ _ :: rs => netBought rs

/-- Net quantity sold across a row list. -/
def netSold : List BucketRow → ℚ
  | [] => 0
  | .buy _ _ :: rs => netSold rs
  | .sell f _ _ :: rs => |f| + netSold rs

theorem lotSum_nonneg (lots : List Lot) (h : ∀ l ∈ lots, 0 < l.qty) :
    0 ≤ lotSum lots := by
  induction lots with
  | nil => simp [lotSum]
  | cons l ls ih =>
      have h1 : 0 < l.qty := h l (List.mem_cons_self l ls)
      have h2 : 0 ≤ lotSum ls := ih fun x hx => h x (List.mem_cons_of_mem l hx)
      simp only [lotSum, List.map_cons, List.sum_cons] at *
      linarith

theorem lotSum_mem_le (lots : List Lot) (l : Lot) (hmem : l ∈ lots)
    (h : ∀ x ∈ lots, 0 < x.qty) : l.qty ≤ lotSum lots := by
  induction lots with
  | nil => simp at hmem
  | cons a ls ih =>
      have ha : 0 < a.qty := h a (List.mem_cons_self a ls)
      have hs : 0 ≤ lotSum ls :=
        lotSum_nonneg ls fun x hx => h x (List.mem_cons_of_mem a hx)
      simp only [lotSum, List.map_cons, List.sum_cons] at *
      rcases List.mem_cons.mp hmem with rfl | hmem
      · linarith
      · have := ih hmem fun x hx => h x (List.mem_cons_of_mem a hx)
        linarith

theorem lotSum_eraseIdx :
    ∀ (lots : List Lot) (i : ℕ), i < lots.length →
      lotSum (lots.eraseIdx i) = lotSum lots - (lots.getD i default).qty
  | [], i, hi => by simp at hi
  | l :: ls, 0, _ => by simp [lotSum]
  | l :: ls, i + 1, hi => by
      have hi' : i < ls.length := by
        simpa using hi
      have := lotSum_eraseIdx ls i hi'
      simp only [List.eraseIdx_cons_succ, lotSum, List.map_cons,
        List.sum_cons, List.getD_cons_succ] at *
      linarith

theorem lotSum_set :
    ∀ (lots : List Lot) (i : ℕ), i < lots.length → ∀ (a : Lot),
      lotSum (lots.set i a) = lotSum lots - (lots.getD i default).qty + a.qty
  | [], i, hi, _ => by simp at hi
  | l :: ls, 0, _, a => by simp [lotSum]; ring
  | l :: ls, i + 1, hi, a => by
      have hi' : i < ls.length := by
        simpa using hi
      have := lotSum_set ls i hi' a
      simp only [List.set_cons_succ, lotSum, List.map_cons,
        List.sum_cons, List.getD_cons_succ] at *
      linarith

theorem getD_mem (lots : List Lot) (i : ℕ) (hi : i < lots.length) :
    lots.getD i default ∈ lots := by
  rw [List.getD_eq_getElem _ _ hi]
  exact List.getElem_mem hi

/-- Safety results of a successful run of the sell loop: lot quantities
are conserved (the final sum is the initial sum minus the quantity sold),
every surviving lot is still live (no zero or negative lot stays in the
deque), every emitted posting takes a positive quantity, and the postings
account exactly for the quantity sold. -/
theorem consumeLotsAux_ok (fuel : ℕ) :
    ∀ (lots : List Lot) (r : ℚ) (m : LotMethod) (ds : List Disposal)
      (lots' : List Lot), lots.length ≤ fuel → (∀ l ∈ lots, 0 < l.qty) →
      consumeLotsAux fuel lots r m = .ok (ds, lots') →
      lotSum lots' = lotSum lots - max r 0 ∧ (∀ l ∈ lots', 0 < l.qty) ∧
        (∀ d ∈ ds, 0 < d.take) ∧ (ds.map Disposal.take).sum = max r 0 := by
  induction fuel with
  | zero =>
      intro lots r m ds lots' hlen hpos h
      unfold consumeLotsAux at h
      by_cases hr : r ≤ 0
      · rw [if_pos hr] at h
        injection h with h
        injection h with h1 h2
        subst h1; subst h2
        refine ⟨by rw [max_eq_right hr]; ring, hpos, by simp, ?_⟩
        rw [max_eq_right hr]; simp
      · rw [if_neg hr] at h
        by_cases hE : lots.isEmpty
        · rw [if_pos hE] at h; exact absurd h (by simp)
        · rw [if_neg hE] at h; exact absurd h (by simp)
  | succ fuel ih =>
      intro lots r m ds lots' hlen hpos h
      unfold consumeLotsAux at h
      by_cases hr : r ≤ 0
      · rw [if_pos hr] at h
        injection h with h
        injection h with h1 h2
        subst h1; subst h2
        refine ⟨by rw [max_eq_right hr]; ring, hpos, by simp, ?_⟩
        rw [max_eq_right hr]; simp
      · rw [if_neg hr] at h
        by_cases hE : lots.isEmpty
        · rw [if_pos hE] at h; exact absurd h (by simp)
        rw [if_neg hE] at h
        have hne : lots ≠ [] := by
          intro hcon; rw [hcon] at hE; exact hE rfl
        have hmax : max r 0 = r := max_eq_left (by linarith)
        cases hsel : selectLotIdx lots m with
        | none => rw [hsel] at h; exact absurd h (by simp)
        | some i =>
            rw [hsel] at h
            simp only at h
            have hi : i < lots.length := selectLotIdx_lt lots m i hne hsel
            have hmemlot : lots.getD i default ∈ lots := getD_mem lots i hi
            have hlotpos : 0 < (lots.getD i default).qty := hpos _ hmemlot
            by_cases hq : (lots.getD i default).qty ≤ r
            · rw [if_pos hq] at h
              cases hrec : consumeLotsAux fuel (lots.eraseIdx i)
                  (r - (lots.getD i default).qty) m with
              | error e => rw [hrec] at h; exact absurd h (by simp)
              | ok out =>
                  obtain ⟨ds₀, l₀⟩ := out
                  rw [hrec] at h
                  injection h with h
                  injection h with h1 h2
                  have hlen' : (lots.eraseIdx i).length ≤ fuel := by
                    have := List.length_eraseIdx_add_one hi
                    omega
                  have hpos' : ∀ l ∈ lots.eraseIdx i, 0 < l.qty :=
                    fun l hl => hpos l (List.mem_of_mem_eraseIdx hl)
                  obtain ⟨ha, hb, hc, hd⟩ :=
                    ih (lots.eraseIdx i) (r - (lots.getD i default).qty) m
                      ds₀ l₀ hlen' hpos' hrec
                  have hmax' : max (r - (lots.getD i default).qty) 0 =
                      r - (lots.getD i default).qty := max_eq_left (by linarith)
                  rw [hmax'] at ha hd
                  rw [lotSum_eraseIdx lots i hi] at ha
                  subst h2
                  subst h1
                  refine ⟨by rw [hmax]; linarith, hb, ?_, ?_⟩
                  · intro d hd'
                    rcases List.mem_cons.mp hd' with rfl | hd'
                    · simp only [min_eq_left hq]
                      linarith
                    · exact hc d hd'
                  · simp only [List.map_cons, List.sum_cons, hd,
                      min_eq_left hq, hmax]
                    ring
            · rw [if_neg hq] at h
              push_neg at hq
              injection h with h
              injection h with h1 h2
              subst h1; subst h2
              have hmin : min (lots.getD i default).qty r = r :=
                min_eq_right (by linarith)
              refine ⟨?_, ?_, ?_, ?_⟩
              · rw [lotSum_set lots i hi, hmax]
                simp only
                ring
              · intro l hl
                rcases List.mem_or_eq_of_mem_set hl with hl | rfl
                · exact hpos l hl
                · simp only
                  linarith
              · intro d hd'
                rcases List.mem_cons.mp hd' with rfl | hd'
                · simp only [hmin]; linarith
                · simp at hd'
              · simp only [List.map_cons, List.map_nil, List.sum_cons,
                  List.sum_nil, add_zero, hmin, hmax]

theorem selectLotIdx_isSome (lots : List Lot) (m : LotMethod)
    (hm : m ≠ .OTHER) : ∃ i, selectLotIdx lots m = some i := by
  cases m with
  | FIFO => exact ⟨0, rfl⟩
  | LIFO => exact ⟨lots.length - 1, rfl⟩
  | OTHER => exact absurd rfl hm
  | HIFO =>
      cases lots with
      | nil => exact ⟨0, rfl⟩
      | cons l ls => exact ⟨hifoScan ls l.cost 0 1, rfl⟩

theorem consumeLotsAux_no_unsupported (fuel : ℕ) :
    ∀ (lots : List Lot) (r : ℚ) (m : LotMethod), m ≠ .OTHER →
      consumeLotsAux fuel lots r m ≠ .error .unsupportedMethod := by
  induction fuel with
  | zero =>
      intro lots r m hm h
      unfold consumeLotsAux at h
      by_cases hr : r ≤ 0
      · rw [if_pos hr] at h; exact absurd h (by simp)
      · rw [if_neg hr] at h
        by_cases hE : lots.isEmpty
        · rw [if_pos hE] at h; simp at h
        · rw [if_neg hE] at h; simp at h
  | succ fuel ih =>
      intro lots r m hm h
      unfold consumeLotsAux at h
      by_cases hr : r ≤ 0
      · rw [if_pos hr] at h; exact absurd h (by simp)
      · rw [if_neg hr] at h
        by_cases hE : lots.isEmpty
        · rw [if_pos hE] at h; simp at h
        rw [if_neg hE] at h
        obtain ⟨i, hsel⟩ := selectLotIdx_isSome lots m hm
        rw [hsel] at h
        simp only at h
        by_cases hq : (lots.getD i default).qty ≤ r
        · rw [if_pos hq] at h
          cases hrec : consumeLotsAux fuel (lots.eraseIdx i)
              (r - (lots.getD i default).qty) m with
          | error e =>
              rw [hrec] at h
              injection h with h
              subst h
              exact ih (lots.eraseIdx i) _ m hm hrec
          | ok out =>
              obtain ⟨ds₀, l₀⟩ := out
              rw [hrec] at h
              simp at h
        · rw [if_neg hq] at h
          simp at h

/-- Fatality of the sell loop is exactly "sell exceeds the held quantity":
with live lots and a supported selection method, the loop aborts with the
`sys.exit(1)` of lines 261-266 precisely when the requested quantity
strictly exceeds the sum of live lot quantities. -/
theorem consumeLotsAux_error_iff (fuel : ℕ) :
    ∀ (lots : List Lot) (r : ℚ) (m : LotMethod), lots.length ≤ fuel →
      (∀ l ∈ lots, 0 < l.qty) → m ≠ .OTHER →
      (consumeLotsAux fuel lots r m = .error .insufficientShares ↔
        lotSum lots < r) := by
  induction fuel with
  | zero =>
      intro lots r m hlen hpos hm
      have hnil : lots = [] := List.length_eq_zero.mp (Nat.le_zero.mp hlen)
      subst hnil
      unfold consumeLotsAux
      by_cases hr : r ≤ 0
      · rw [if_pos hr]
        simp [lotSum]
        linarith
      · rw [if_neg hr]
        simp [lotSum]
        linarith
  | succ fuel ih =>
      intro lots r m hlen hpos hm
      unfold consumeLotsAux
      by_cases hr : r ≤ 0
      · rw [if_pos hr]
        have := lotSum_nonneg lots hpos
        simp only [reduceCtorEq, false_iff, not_lt]
        linarith
      · rw [if_neg hr]
        by_cases hE : lots.isEmpty
        · rw [if_pos hE]
          have : lots = [] := List.isEmpty_iff.mp hE
          subst this
          simp [lotSum]
          linarith
        rw [if_neg hE]
        have hne : lots ≠ [] := by
          intro hcon; rw [hcon] at hE; exact hE rfl
        cases hsel : selectLotIdx lots m with
        | none =>
            exfalso
            cases m with
            | FIFO => simp [selectLotIdx] at hsel
            | LIFO => simp [selectLotIdx] at hsel
            | OTHER => exact hm rfl
            | HIFO =>
                cases lots with
                | nil => exact hne rfl
                | cons l ls => simp [selectLotIdx] at hsel
        | some i =>
            simp only
            have hi : i < lots.length := selectLotIdx_lt lots m i hne hsel
            have hmemlot : lots.getD i default ∈ lots := getD_mem lots i hi
            have hlotpos : 0 < (lots.getD i default).qty := hpos _ hmemlot
            by_cases hq : (lots.getD i default).qty ≤ r
            · rw [if_pos hq]
              have hlen' : (lots.eraseIdx i).length ≤ fuel := by
                have := List.length_eraseIdx_add_one hi
                omega
              have hpos' : ∀ l ∈ lots.eraseIdx i, 0 < l.qty :=
                fun l hl => hpos l (List.mem_of_mem_eraseIdx hl)
              have hiff := ih (lots.eraseIdx i) (r - (lots.getD i default).qty)
                m hlen' hpos' hm
              rw [lotSum_eraseIdx lots i hi] at hiff
              cases hrec : consumeLotsAux fuel (lots.eraseIdx i)
                  (r - (lots.getD i default).qty) m with
              | error e =>
                  rw [hrec] at hiff
                  cases e with
                  | insufficientShares =>
                      simp only [reduceCtorEq, true_iff] at hiff ⊢
                      linarith
                  | unsupportedMethod =>
                      exact absurd hrec
                        (consumeLotsAux_no_unsupported fuel (lots.eraseIdx i)
                          (r - (lots.getD i default).qty) m hm)
              | ok out =>
                  obtain ⟨ds₀, l₀⟩ := out
                  rw [hrec] at hiff
                  simp only [reduceCtorEq, false_iff, not_lt] at hiff
                  simp only [reduceCtorEq, false_iff, not_lt]
                  linarith
            · rw [if_neg hq]
              push_neg at hq
              have : (lots.getD i default).qty ≤ lotSum lots :=
                lotSum_mem_le lots _ hmemlot hpos
              simp only [reduceCtorEq, false_iff, not_lt]
              linarith

/-- Well-formedness of one input row, as §3 of the spec fixes the data
model: a transaction's quantity is positive (`BUY positive`, `SELL
positive-but-interpreted-as-reduction`), and a sell row names one of the
three supported selection methods. -/
def RowValid : BucketRow → Prop
  | .buy q _ => 0 < q
  | .sell f _ m => 0 < |f| ∧ m ≠ .OTHER

instance : DecidablePred RowValid := by
  intro r
  cases r with
  | buy q a => exact inferInstanceAs (Decidable (0 < q))
  | sell f t m => exact inferInstanceAs (Decidable (0 < |f| ∧ m ≠ .OTHER))

theorem replayBucketFwd_append_one (rows : List BucketRow) (row : BucketRow) :
    replayBucketFwd (rows ++ [row]) =
      match replayBucketFwd rows with
      | .error e => .error e
      | .ok lots =>
          match applyBucketRow lots row with
          | .error e => .error e
          | .ok (_, lots') => .ok lots' := by
  unfold replayBucketFwd
  rw [List.reverse_append]
  rfl

theorem netBought_append (xs ys : List BucketRow) :
    netBought (xs ++ ys) = netBought xs + netBought ys := by
  induction xs with
  | nil => simp [netBought]
  | cons x xs ih =>
      cases x with
      | buy q a =>
          simp only [List.cons_append, netBought, List.append_eq]
          rw [ih]; ring
      | sell f t m =>
          simp only [List.cons_append, netBought, List.append_eq]
          rw [ih]

theorem netSold_append (xs ys : List BucketRow) :
    netSold (xs ++ ys) = netSold xs + netSold ys := by
  induction xs with
  | nil => simp [netSold]
  | cons x xs ih =>
      cases x with
      | buy q a =>
          simp only [List.cons_append, netSold, List.append_eq]
          rw [ih]
      | sell f t m =>
          simp only [List.cons_append, netSold, List.append_eq]
          rw [ih]; ring

theorem lotSum_append (xs ys : List Lot) :
    lotSum (xs ++ ys) = lotSum xs + lotSum ys := by
  unfold lotSum
  rw [List.map_append, List.sum_append]

/-- Replay invariant behind C1: every reachable deque state consists of
live lots whose total quantity is exactly net bought minus net sold. -/
theorem replay_invariant (rows : List BucketRow)
    (hv : ∀ r ∈ rows, RowValid r) :
    ∀ lots, replayBucketFwd rows = .ok lots →
      (∀ l ∈ lots, 0 < l.qty) ∧
      lotSum lots = netBought rows - netSold rows := by
  induction rows using List.reverseRecOn with
  | nil =>
      intro lots h
      injection h with h
      subst h
      simp [lotSum, netBought, netSold]
  | append_singleton rs r ih =>
      intro lots h
      rw [replayBucketFwd_append_one] at h
      cases hprev : replayBucketFwd rs with
      | error e => rw [hprev] at h; exact absurd h (by simp)
      | ok lots₀ =>
          rw [hprev] at h
          have hv' : ∀ x ∈ rs, RowValid x :=
            fun x hx => hv x (List.mem_append_left _ hx)
          have hvr : RowValid r :=
            hv r (List.mem_append_right _ (List.mem_cons_self r []))
          obtain ⟨hpos₀, hsum₀⟩ := ih hv' lots₀ hprev
          cases r with
          | buy q a =>
              simp only [applyBucketRow] at h
              injection h with h
              subst h
              constructor
              · intro l hl
                rcases List.mem_append.mp hl with hl | hl
                · exact hpos₀ l hl
                · rcases List.mem_singleton.mp hl with rfl
                  exact hvr
              · rw [lotSum_append, netBought_append, netSold_append]
                simp only [lotSum, netBought, netSold, List.map_cons,
                  List.map_nil, List.sum_cons, List.sum_nil] at hsum₀ ⊢
                linarith
          | sell f t m =>
              simp only [applyBucketRow] at h
              cases hsell : consumeLots lots₀ |f| m with
              | error e => rw [hsell] at h; exact absurd h (by simp)
              | ok out =>
                  obtain ⟨ds, lots₁⟩ := out
                  rw [hsell] at h
                  injection h with h
                  subst h
                  obtain ⟨ha, hb, _, _⟩ :=
                    consumeLotsAux_ok lots₀.length lots₀ |f| m ds lots₁
                      le_rfl hpos₀ hsell
                  refine ⟨hb, ?_⟩
                  rw [netBought_append, netSold_append]
                  have habs : max |f| 0 = |f| := max_eq_left (abs_nonneg f)
                  rw [habs] at ha
                  simp only [netBought, netSold] at *
                  linarith

/-- C1 (invariants): replaying sorted BUY/SELL rows against one
`(account, symbol)` bucket, after every processed prefix the sum of the
remaining live-lot quantities equals the total quantity bought minus the
total quantity sold so far and never becomes negative; and a SELL row
whose quantity exceeds the currently held quantity makes the run abort
with the fatal `sys.exit(1)` of lines 261-266 instead of leaving a
negative balance. -/
theorem claim_C1 (rows : List BucketRow) (hv : ∀ r ∈ rows, RowValid r) :
    (∀ (k : ℕ) (lots : List Lot), replayBucketFwd (rows.take k) = .ok lots →
        lotSum lots = netBought (rows.take k) - netSold (rows.take k) ∧
        0 ≤ lotSum lots) ∧
    (∀ (k : ℕ) (f t : ℚ) (m : LotMethod) (lots : List Lot),
        rows[k]? = some (.sell f t m) →
        replayBucketFwd (rows.take k) = .ok lots →
        lotSum lots < |f| →
        replayBucketFwd (rows.take (k + 1)) =
          .error .insufficientShares) := by
  have hvtake : ∀ k, ∀ r ∈ rows.take k, RowValid r :=
    fun k r hr => hv r (List.take_subset k rows hr)
  constructor
  · intro k lots h
    obtain ⟨hpos, hsum⟩ := replay_invariant (rows.take k) (hvtake k) lots h
    exact ⟨hsum, lotSum_nonneg lots hpos⟩
  · intro k f t m lots hrow hok hlt
    have hmem : BucketRow.sell f t m ∈ rows := List.getElem?_mem hrow
    obtain ⟨hfpos, hm⟩ : 0 < |f| ∧ m ≠ .OTHER := hv _ hmem
    obtain ⟨hpos, _⟩ := replay_invariant (rows.take k) (hvtake k) lots hok
    have htake : rows.take (k + 1) = rows.take k ++ [BucketRow.sell f t m] := by
      rw [List.take_succ, hrow]
      rfl
    rw [htake, replayBucketFwd_append_one, hok]
    simp only [applyBucketRow]
    have herr : consumeLots lots |f| m = .error .insufficientShares :=
      (consumeLotsAux_error_iff lots.length lots |f| m le_rfl hpos hm).mpr hlt
    rw [herr]

/-- Witness for C1: BUY 10 units for 1000, SELL 4 (leaving one live lot of
6 units at cost 100), then SELL 7 against a holding of 6 aborts. -/
theorem claim_C1_witness :
    (lotSum [⟨6, 100⟩] =
        netBought ([BucketRow.buy 10 (-1000),
          BucketRow.sell 4 1200 .FIFO,
          BucketRow.sell 7 700 .FIFO].take 2) -
        netSold ([BucketRow.buy 10 (-1000),
          BucketRow.sell 4 1200 .FIFO,
          BucketRow.sell 7 700 .FIFO].take 2) ∧
      0 ≤ lotSum [⟨6, 100⟩]) ∧
    replayBucketFwd [BucketRow.buy 10 (-1000),
      BucketRow.sell 4 1200 .FIFO,
      BucketRow.sell 7 700 .FIFO] = .error .insufficientShares := by
  have h := claim_C1 [BucketRow.buy 10 (-1000),
    BucketRow.sell 4 1200 .FIFO, BucketRow.sell 7 700 .FIFO]
    (by norm_num [List.forall_mem_cons, RowValid]; decide)
  have hrun : replayBucketFwd ([BucketRow.buy 10 (-1000),
      BucketRow.sell 4 1200 .FIFO,
      BucketRow.sell 7 700 .FIFO].take 2) = .ok [⟨6, 100⟩] := by
    norm_num [replayBucketFwd, replayBucket, applyBucketRow, consumeLots,
      consumeLotsAux, selectLotIdx, fmt, roundHalfAwayFromZero]
  refine ⟨h.1 2 [⟨6, 100⟩] hrun, ?_⟩
  have h2 := h.2 2 7 700 .FIFO [⟨6, 100⟩] (by rfl) hrun
    (by norm_num [lotSum])
  exact h2

theorem hifoScan_spec (ls : List Lot) :
    ∀ (bc : ℚ) (best i : ℕ),
      (hifoScan ls bc best i = best ∧
        ∀ k < ls.length, (ls.getD k default).cost ≤ bc) ∨
      (∃ k, k < ls.length ∧ hifoScan ls bc best i = i + k ∧
        bc < (ls.getD k default).cost ∧
        (∀ j < ls.length,
          (ls.getD j default).cost ≤ (ls.getD k default).cost) ∧
        (∀ j < k,
          (ls.getD j default).cost < (ls.getD k default).cost)) := by
  induction ls with
  | nil =>
      intro bc best i
      left
      exact ⟨rfl, by simp⟩
  | cons l ls ih =>
      intro bc best i
      simp only [hifoScan]
      by_cases h : bc < l.cost
      · rw [if_pos h]
        right
        rcases ih l.cost i (i + 1) with ⟨hres, hall⟩ |
          ⟨k, hk, hres, hgt, hall, hlt⟩
        · refine ⟨0, by simp, by omega, ?_, ?_, ?_⟩
          · simpa using h
          · intro j hj
            cases j with
            | zero => simp
            | succ j =>
                simp only [List.getD_cons_succ, List.getD_cons_zero]
                exact hall j (by simpa using hj)
          · intro j hj
            omega
        · refine ⟨k + 1, by simpa using hk, by omega, ?_, ?_, ?_⟩
          · simp only [List.getD_cons_succ]
            exact lt_trans h hgt
          · intro j hj
            cases j with
            | zero =>
                simp only [List.getD_cons_succ, List.getD_cons_zero]
                exact le_of_lt hgt
            | succ j =>
                simp only [List.getD_cons_succ]
                exact hall j (by simpa using hj)
          · intro j hj
            cases j with
            | zero =>
                simp only [List.getD_cons_succ, List.getD_cons_zero]
                exact hgt
            | succ j =>
                simp only [List.getD_cons_succ]
                exact hlt j (by omega)
      · rw [if_neg h]
        push_neg at h
        rcases ih bc best (i + 1) with ⟨hres, hall⟩ |
          ⟨k, hk, hres, hgt, hall, hlt⟩
        · left
          refine ⟨hres, ?_⟩
          intro j hj
          cases j with
          | zero => simpa using h
          | succ j =>
              simp only [List.getD_cons_succ]
              exact hall j (by simpa using hj)
        · right
          refine ⟨k + 1, by simpa using hk, by omega, ?_, ?_, ?_⟩
          · simp only [List.getD_cons_succ]
            exact hgt
          · intro j hj
            cases j with
            | zero =>
                simp only [List.getD_cons_succ, List.getD_cons_zero]
                exact le_trans h (le_of_lt hgt)
            | succ j =>
                simp only [List.getD_cons_succ]
                exact hall j (by simpa using hj)
          · intro j hj
            cases j with
            | zero =>
                simp only [List.getD_cons_succ, List.getD_cons_zero]
                exact lt_of_le_of_lt h hgt
            | succ j =>
                simp only [List.getD_cons_succ]
                exact hlt j (by omega)

theorem consumeLots_head (lots : List Lot) (r : ℚ) (m : LotMethod)
    (hne : lots ≠ []) (hr : 0 < r) (i : ℕ)
    (hsel : selectLotIdx lots m = some i) :
    ∀ (ds : List Disposal) (lots' : List Lot),
      consumeLots lots r m = .ok (ds, lots') →
      ∃ ds₀, ds = ⟨min (lots.getD i default).qty r,
        (lots.getD i default).cost⟩ :: ds₀ := by
  intro ds lots' h
  unfold consumeLots at h
  cases hL : lots.length with
  | zero => exact absurd (List.length_eq_zero.mp hL) hne
  | succ n =>
      rw [hL] at h
      unfold consumeLotsAux at h
      rw [if_neg (by linarith)] at h
      rw [if_neg (fun hcon => hne (List.isEmpty_iff.mp hcon))] at h
      rw [hsel] at h
      simp only at h
      by_cases hq : (lots.getD i default).qty ≤ r
      · rw [if_pos hq] at h
        cases hrec : consumeLotsAux n (lots.eraseIdx i)
            (r - (lots.getD i default).qty) m with
        | error e => rw [hrec] at h; exact absurd h (by simp)
        | ok out =>
            obtain ⟨ds₀, l₀⟩ := out
            rw [hrec] at h
            injection h with h
            injection h with h1 h2
            exact ⟨ds₀, h1.symm⟩
      · rw [if_neg hq] at h
        injection h with h
        injection h with h1 h2
        exact ⟨[], h1.symm⟩

/-- C2 (functional correctness of sell resolution): `select_lot` picks the
front of the deque under FIFO (the oldest lot), the back under LIFO (the
newest), and under HIFO a lot whose cost per unit is maximal with every
strictly older lot strictly cheaper (Python `max` keeps the first maximal
element, so ties break toward the oldest).  Each selected lot is consumed
by `min(lot remaining, quantity still needed)` (head posting of the
emitted disposal list), one disposal posting is emitted per selected lot
(every posting has a positive take and the takes sum to the quantity
sold), and a lot leaves the bucket exactly when its remaining quantity
reaches zero (no dead lot survives, and the surviving quantity is exactly
the held quantity minus the quantity sold, so nothing is dropped early). -/
theorem claim_C2 (lots : List Lot) :
    selectLotIdx lots .FIFO = some 0 ∧
    selectLotIdx lots .LIFO = some (lots.length - 1) ∧
    (lots ≠ [] → ∃ i, selectLotIdx lots .HIFO = some i ∧ i < lots.length ∧
        (∀ j < lots.length,
          (lots.getD j default).cost ≤ (lots.getD i default).cost) ∧
        (∀ j < i,
          (lots.getD j default).cost < (lots.getD i default).cost)) ∧
    (∀ (r : ℚ) (m : LotMethod) (i : ℕ) (ds : List Disposal)
        (lots' : List Lot), lots ≠ [] → 0 < r →
        selectLotIdx lots m = some i →
        consumeLots lots r m = .ok (ds, lots') →
        ∃ ds₀, ds = ⟨min (lots.getD i default).qty r,
          (lots.getD i default).cost⟩ :: ds₀) ∧
    (∀ (r : ℚ) (m : LotMethod) (ds : List Disposal) (lots' : List Lot),
        (∀ l ∈ lots, 0 < l.qty) →
        consumeLots lots r m = .ok (ds, lots') →
        lotSum lots' = lotSum lots - max r 0 ∧ (∀ l ∈ lots', 0 < l.qty) ∧
        (∀ d ∈ ds, 0 < d.take) ∧
        (ds.map Disposal.take).sum = max r 0) := by
  refine ⟨rfl, rfl, ?_, ?_, ?_⟩
  · intro hne
    cases lots with
    | nil => exact absurd rfl hne
    | cons l ls =>
        rcases hifoScan_spec ls l.cost 0 1 with ⟨hres, hall⟩ |
          ⟨k, hk, hres, hgt, hall, hlt⟩
        · refine ⟨0, by simp [selectLotIdx, hres], by simp, ?_, ?_⟩
          · intro j hj
            cases j with
            | zero => simp
            | succ j =>
                simp only [List.getD_cons_succ, List.getD_cons_zero]
                exact hall j (by simpa using hj)
          · intro j hj
            omega
        · refine ⟨k + 1, ?_, by simpa using hk, ?_, ?_⟩
          · simp only [selectLotIdx, hres, Option.some_inj]
            omega
          · intro j hj
            cases j with
            | zero =>
                simp only [List.getD_cons_succ, List.getD_cons_zero]
                exact le_of_lt hgt
            | succ j =>
                simp only [List.getD_cons_succ]
                exact hall j (by simpa using hj)
          · intro j hj
            cases j with
            | zero =>
                simp only [List.getD_cons_succ, List.getD_cons_zero]
                exact hgt
            | succ j =>
                simp only [List.getD_cons_succ]
                exact hlt j (by omega)
  · intro r m i ds lots' hne hr hsel hok
    exact consumeLots_head lots r m hne hr i hsel ds lots' hok
  · intro r m ds lots' hpos hok
    exact consumeLotsAux_ok lots.length lots r m ds lots' le_rfl hpos hok

/-- Witness for C2 on the deque `[2 units at cost 10, 3 units at cost 12]`
selling 4 units under HIFO: the lot at index 1 (cost 12) is selected
first, consumed whole, then the residue of 1 unit comes from the cheaper
lot, leaving one unit live. -/
theorem claim_C2_witness :
    (∃ i, selectLotIdx [(⟨2, 10⟩ : Lot), ⟨3, 12⟩] .HIFO = some i ∧
        i < ([(⟨2, 10⟩ : Lot), ⟨3, 12⟩] : List Lot).length ∧
        (∀ j < ([(⟨2, 10⟩ : Lot), ⟨3, 12⟩] : List Lot).length,
          (([(⟨2, 10⟩ : Lot), ⟨3, 12⟩] : List Lot).getD j default).cost ≤
          (([(⟨2, 10⟩ : Lot), ⟨3, 12⟩] : List Lot).getD i default).cost) ∧
        (∀ j < i,
          (([(⟨2, 10⟩ : Lot), ⟨3, 12⟩] : List Lot).getD j default).cost <
          (([(⟨2, 10⟩ : Lot), ⟨3, 12⟩] : List Lot).getD i default).cost)) ∧
    (∃ ds₀, ([(⟨3, 12⟩ : Disposal), ⟨1, 10⟩] : List Disposal) =
        ⟨min (([(⟨2, 10⟩ : Lot), ⟨3, 12⟩] : List Lot).getD 1 default).qty 4,
          (([(⟨2, 10⟩ : Lot), ⟨3, 12⟩] : List Lot).getD 1 default).cost⟩ ::
          ds₀) ∧
    (lotSum [(⟨1, 10⟩ : Lot)] =
        lotSum [(⟨2, 10⟩ : Lot), ⟨3, 12⟩] - max 4 0 ∧
      (∀ l ∈ ([(⟨1, 10⟩ : Lot)] : List Lot), 0 < l.qty) ∧
      (∀ d ∈ ([(⟨3, 12⟩ : Disposal), ⟨1, 10⟩] : List Disposal), 0 < d.take) ∧
      (([(⟨3, 12⟩ : Disposal), ⟨1, 10⟩] : List Disposal).map
          Disposal.take).sum = max 4 0) := by
  have h := claim_C2 [(⟨2, 10⟩ : Lot), ⟨3, 12⟩]
  have hok : consumeLots [(⟨2, 10⟩ : Lot), ⟨3, 12⟩] 4 .HIFO =
      .ok ([⟨3, 12⟩, ⟨1, 10⟩], [⟨1, 10⟩]) := by
    norm_num [consumeLots, consumeLotsAux, selectLotIdx, hifoScan]
  refine ⟨h.2.2.1 (by simp), ?_, ?_⟩
  · exact h.2.2.2.1 4 .HIFO 1 [⟨3, 12⟩, ⟨1, 10⟩] [⟨1, 10⟩] (by simp)
      (by norm_num) (by decide) hok
  · exact h.2.2.2.2 4 .HIFO [⟨3, 12⟩, ⟨1, 10⟩] [⟨1, 10⟩]
      (by norm_num [List.forall_mem_cons]) hok

/-! ## Gregorian dates and the market calendar
(`holiday_calculator.py`, date arithmetic of `datetime` / `dateutil`) -/

/-- Proleptic-Gregorian leap year, as `datetime.date` uses. -/
def isLeapYear (y : ℤ) : Bool :=
  y % 4 == 0 && (y % 100 != 0 || y % 400 == 0)

/-- Length of a month of the proleptic Gregorian calendar. -/
def daysInMonth (y m : ℤ) : ℤ :=
  if m = 2 then (if isLeapYear y then 29 else 28)
  else if m = 4 ∨ m = 6 ∨ m = 9 ∨ m = 11 then 30
  else 31

/-- A `datetime.date`: year, month, day. -/
structure Ymd where
  year : ℤ
  month : ℤ
  day : ℤ
deriving DecidableEq

/-- The triple denotes a constructible `datetime.date`
(`date(y, m, d)` raises `ValueError` otherwise). -/
def Ymd.validB (a : Ymd) : Bool :=
  decide (1 ≤ a.month) && decide (a.month ≤ 12) &&
    decide (1 ≤ a.day) && decide (a.day ≤ daysInMonth a.year a.month)

/-- Day number of a date (days since 1970-01-01, negative before), the
standard civil-from-triple conversion; `datetime.date` arithmetic and
comparisons are modelled on this number line.  All divisions have
non-negative operands on valid dates, where `Int` division is floor
division. -/
def toRataDie (y m d : ℤ) : ℤ :=
  let yy := if m ≤ 2 then y - 1 else y
  let era := yy / 400
  let yoe := yy - era * 400
  let mp := (m + 9) % 12
  let doy := (153 * mp + 2) / 5 + d - 1
  let doe := yoe * 365 + yoe / 4 - yoe / 100 + doy
  era * 146097 + doe - 719468

def Ymd.toRD (a : Ymd) : ℤ := toRataDie a.year a.month a.day

/-- Inverse conversion (triple-from-day-number). -/
def fromRataDie (z : ℤ) : Ymd :=
  let zz := z + 719468
  let era := zz / 146097
  let doe := zz - era * 146097
  let yoe := (doe - doe / 1460 + doe / 36524 - doe / 146096) / 365
  let y := yoe + era * 400
  let doy := doe - (365 * yoe + yoe / 4 - yoe / 100)
  let mp := (5 * doy + 2) / 153
  let d := doy - (153 * mp + 2) / 5 + 1
  let m := mp + (if mp < 10 then 3 else -9)
  ⟨if m ≤ 2 then y + 1 else y, m, d⟩

/-- Python `date` comparison (chronological). -/
def ymdLt (a b : Ymd) : Bool := decide (a.toRD < b.toRD)

/-- Python `date` comparison (chronological, non-strict). -/
def ymdLe (a b : Ymd) : Bool := decide (a.toRD ≤ b.toRD)

/-- A trading day: `weekday() < 5` and not in the holiday set
(`next_market_day`, holiday_calculator.py lines 20-27).  1970-01-01
(day 0) was a Thursday and Python's `weekday()` has Monday = 0, so the
weekday of day `z` is `(z + 3) % 7`.  The holiday set itself is the
external data `holidays.India(years=[2024..2035])`, taken as a
parameter. -/
def isMarketDay (hol : ℤ → Bool) (z : ℤ) : Bool :=
  decide ((z + 3) % 7 < 5) && !(hol z)

/-- The trailing loop of `next_market_day` (lines 26-27): advance one day
at a time until a trading day is hit.  Fuel bounds the search; `none`
models a (never occurring in practice) calendar with no trading day in
the window. -/
def shiftToMarket (hol : ℤ → Bool) : ℕ → ℤ → Option ℤ
  | 0, _ => none
  | fuel + 1, z =>
      if isMarketDay hol z then some z else shiftToMarket hol fuel (z + 1)

def calendarFuel : ℕ := 400

/-- `next_market_day(start_date, lag_days)` (lines 13-29): count forward
`lag_days` trading days (each counted day is itself a trading day), then
roll forward to a trading day (a no-op when `lag_days > 0`). -/
def nextMarketDay (hol : ℤ → Bool) (z : ℤ) : ℕ → Option ℤ
  | 0 => shiftToMarket hol calendarFuel z
  | lag + 1 =>
      match shiftToMarket hol calendarFuel (z + 1) with
      | none => none
      | some w => nextMarketDay hol w lag

/-- `market_shifted` (cashflow_generator.py lines 24-26):
`next_market_day(dt, lag_days=0)`. -/
def marketShifted (hol : ℤ → Bool) (z : ℤ) : Option ℤ :=
  nextMarketDay hol z 0

/-- `dateutil`'s `relativedelta(months=k)`: shift the month index and
clamp the day to the target month's length. -/
def addMonths (a : Ymd) (k : ℤ) : Ymd :=
  let t := a.year * 12 + (a.month - 1) + k
  let y := t / 12
  let m := t % 12 + 1
  ⟨y, m, min a.day (daysInMonth y m)⟩

theorem shiftToMarket_spec (hol : ℤ → Bool) :
    ∀ (fuel : ℕ) (z w : ℤ), shiftToMarket hol fuel z = some w →
      isMarketDay hol w = true ∧ z ≤ w := by
  intro fuel
  induction fuel with
  | zero => intro z w h; simp [shiftToMarket] at h
  | succ fuel ih =>
      intro z w h
      unfold shiftToMarket at h
      by_cases hm : isMarketDay hol z
      · rw [if_pos hm] at h
        injection h with h
        subst h
        exact ⟨hm, le_refl z⟩
      · rw [if_neg hm] at h
        obtain ⟨h1, h2⟩ := ih (z + 1) w h
        exact ⟨h1, by omega⟩

theorem daysInMonth_ge_28 (y m : ℤ) : 28 ≤ daysInMonth y m := by
  unfold daysInMonth
  by_cases h2 : m = 2
  · rw [if_pos h2]
    by_cases hl : isLeapYear y <;> simp [hl]
  · rw [if_neg h2]
    by_cases h30 : m = 4 ∨ m = 6 ∨ m = 9 ∨ m = 11 <;> simp [h30]

theorem daysInMonth_le_31 (y m : ℤ) : daysInMonth y m ≤ 31 := by
  unfold daysInMonth
  by_cases h2 : m = 2
  · rw [if_pos h2]
    by_cases hl : isLeapYear y <;> simp [hl]
  · rw [if_neg h2]
    by_cases h30 : m = 4 ∨ m = 6 ∨ m = 9 ∨ m = 11 <;> simp [h30]

/-! ## Cashflow scheduler (`cashflow_generator.py`) -/

/-- One entry of a `SortedDict` cashflow schedule.  The Python slots are
dicts with optional keys; an `Option` field is `none` exactly when the
key is absent, `quantity` is present in every slot the code creates, and
the boolean tags model key presence of `coupon_date` / `maturity`. -/
structure CfSlot where
  quantity : ℚ
  transactionAmount : Option ℚ
  couponDate : Bool
  maturityTag : Bool
  couponPayment : Option ℚ
  principalRepayment : Option ℚ
  totalCashflow : Option ℚ
deriving DecidableEq

/-- `empty_txn_slot` (lines 53-55). -/
def emptyTxnSlot : CfSlot :=
  ⟨0, some 0, false, false, none, none, none⟩

/-- `empty_coupon_slot` (lines 58-60). -/
def emptyCouponSlot : CfSlot :=
  ⟨0, none, true, false, none, none, none⟩

/-- The maturity slot of line 204:
`{"quantity": 0, "coupon_date": True, "maturity": True}`. -/
def maturitySlot : CfSlot :=
  ⟨0, none, true, true, none, none, none⟩

/-- A `SortedDict` keyed by day number: an association list kept sorted
by strictly increasing key. -/
abbrev Sched : Type := List (ℤ × CfSlot)

/-- Ensure a key is present (inserting `dflt` when absent, as
`setdefault` / the `if date not in cf` pattern does) and update the slot
stored there with `f`.  Plain `setdefault` is `schedModify s k dflt id`. -/
def schedModify : Sched → ℤ → CfSlot → (CfSlot → CfSlot) → Sched
  | [], k, dflt, f => [(k, f dflt)]
  | (k', v) :: rest, k, dflt, f =>
      if k < k' then (k, f dflt) :: (k', v) :: rest
      else if k = k' then (k', f v) :: rest
      else (k', v) :: schedModify rest k dflt f

/-- Dictionary lookup on a schedule. -/
def schedGet : Sched → ℤ → Option CfSlot
  | [], _ => none
  | (k', v) :: rest, k => if k = k' then some v else schedGet rest k

/-- The running walk of `apply_coupon_and_principal` (lines 70-87):
accumulate the running quantity, overwrite each slot's quantity with it,
add `coupon_payment` on coupon dates with positive running quantity, add
`principal_repayment` and zero the quantity at `last_date`, then set
`total_cashflow` to the sum of the three components, each read with
`.get(key, 0)`. -/
def capWalk (couponRate couponFrequency faceValue : ℚ) (lastDt : ℤ) :
    ℚ → List (ℤ × CfSlot) → List (ℤ × CfSlot)
  | _, [] => []
  | run, (dt, v) :: rest =>
      let run' := run + v.quantity
      let v1 : CfSlot := { v with quantity := run' }
      let couponAmt :=
        faceValue * run' * (couponRate / 100) / couponFrequency
      let v2 : CfSlot :=
        if 0 < run' ∧ v1.couponDate then
          { v1 with couponPayment := some couponAmt }
        else v1
      let v3 : CfSlot :=
        if dt = lastDt ∧ 0 < run' then
          { v2 with
            principalRepayment := some (faceValue * run')
            quantity := 0 }
        else v2
      let total :=
        v3.couponPayment.getD 0 + v3.principalRepayment.getD 0 +
          v3.transactionAmount.getD 0
      let v4 : CfSlot := { v3 with totalCashflow := some total }
      (dt, v4) :: capWalk couponRate couponFrequency faceValue lastDt run' rest

/-- `apply_coupon_and_principal` (lines 63-88).  `next(reversed(cf))`
raises `StopIteration` on an empty dict, modelled by `none`; on a sorted
schedule the last key of the list is the largest key. -/
def applyCouponAndPrincipal (cf : Sched) (couponRate couponFrequency
    faceValue : ℚ) : Option Sched :=
  match cf.getLast? with
  | none => none
  | some (lastDt, _) =>
      some (capWalk couponRate couponFrequency faceValue lastDt 0 cf)

/-- `generate_coupon_dates`, first loop (lines 40-42): step the anchor
forward by `months_per_coupon` until it passes `start_date`. -/
def firstCouponLoop (mpc : ℤ) (start : Ymd) : ℕ → Ymd → Option Ymd
  | 0, _ => none
  | fuel + 1, c =>
      if ymdLe c start then firstCouponLoop mpc start fuel (addMonths c mpc)
      else some c

/-- `generate_coupon_dates`, second loop (lines 44-48): collect
market-shifted dates while strictly before `maturity_date`. -/
def couponCollect (hol : ℤ → Bool) (mpc : ℤ) (maturity : Ymd) :
    ℕ → Ymd → Option (List ℤ)
  | 0, _ => none
  | fuel + 1, c =>
      if ymdLt c maturity then
        match marketShifted hol c.toRD with
        | none => none
        | some w =>
            match couponCollect hol mpc maturity fuel (addMonths c mpc) with
            | none => none
            | some ws => some (w :: ws)
      else some []

def couponFuel : ℕ := 4000

/-- `generate_coupon_dates(start_date, maturity_date, coupon_frequency)`
(lines 29-50): anchor at `date(start_date.year, maturity.month,
maturity.day)` (`none` models the `ValueError` when that triple is not a
real date, e.g. Feb 29 anchored into a non-leap year), walk forward past
`start_date`, then collect market-shifted dates until `maturity_date`
exclusive.  `none` also models non-termination (`12 // frequency == 0`)
and calendar exhaustion, neither of which occurs on the inputs the
claims quantify over. -/
def generateCouponDates (hol : ℤ → Bool) (start maturity : Ymd)
    (freq : ℕ) : Option (List ℤ) :=
  let mpc : ℤ := ((12 / freq : ℕ) : ℤ)
  let anchor : Ymd := ⟨start.year, maturity.month, maturity.day⟩
  if anchor.validB then
    match firstCouponLoop mpc start couponFuel anchor with
    | none => none
    | some first => couponCollect hol mpc maturity couponFuel first
  else none

/-- `QUANTITY_LAG_DAYS` (config.py line 24). -/
def QUANTITY_LAG_DAYS : ℕ := 2

/-- The normalised `EVENT TYPE` column
(`row["EVENT TYPE"].replace(" ", "").upper()`, line 133): anything other
than `BUY` / `SELL` is invalid. -/
inductive EventType where
  | BUY
  | SELL
  | INVALID
deriving DecidableEq

/-- One row of the joined transaction dataframe consumed by
`generate_cashflows`, restricted to the columns the engine reads.
The `ISIN` column only flows into the metadata dataframe and is not
modelled. -/
structure GsecRow where
  symbol : String
  eventType : EventType
  eventDate : Ymd
  maturityDate : Ymd
  units : ℚ
  pricePerUnit : ℚ
  couponRate : ℚ
  couponFrequency : ℕ
  faceValue : ℚ
deriving DecidableEq

/-- Per-symbol coupon metadata captured from the first row of the symbol
(lines 143-150). -/
structure CouponMeta where
  couponRate : ℚ
  couponFrequency : ℕ
  faceValue : ℚ
  maturityDate : Ymd
deriving DecidableEq

/-- Fatal `sys.exit(1)` exits of `generate_cashflows`, plus the error
values of the modelled sub-computations. -/
inductive CashflowFatal where
  | eventAfterMaturity (symbol : String)
  | invalidEventType (symbol : String)
  | negativeInitialQuantity (symbol : String)
  | couponGeneration (symbol : String)
  | calendarExhausted (symbol : String)
  | emptySchedule (symbol : String)
deriving DecidableEq

/-- Insertion-ordered association list helpers for the per-symbol maps
(Python dict preserves insertion order). -/
def assocGet {α : Type} : List (String × α) → String → Option α
  | [], _ => none
  | (s, a) :: rest, sym => if sym = s then some a else assocGet rest sym

def assocSet {α : Type} : List (String × α) → String → α →
    List (String × α)
  | [], sym, a => [(sym, a)]
  | (s, b) :: rest, sym, a =>
      if sym = s then (s, a) :: rest else (s, b) :: assocSet rest sym a

/-- The transaction-ingestion loop of `generate_cashflows`
(lines 132-182) over one row: validity checks, metadata capture, slot
creation and the BUY/SELL postings.  The `portfolio_investment` /
`investment_by_symbol` accumulators only feed the XIRR reporting tail,
which is outside the claims and not modelled. -/
def ingestRow (hol : ℤ → Bool)
    (st : List (String × Sched) × List (String × CouponMeta))
    (row : GsecRow) :
    Except CashflowFatal
      (List (String × Sched) × List (String × CouponMeta)) :=
  let (symMap, metaMap) := st
  if ymdLt row.maturityDate row.eventDate then
    .error (.eventAfterMaturity row.symbol)
  else
    let metaMap :=
      match assocGet metaMap row.symbol with
      | some _ => metaMap
      | none => assocSet metaMap row.symbol
          ⟨row.couponRate, row.couponFrequency, row.faceValue,
            row.maturityDate⟩
    let cf := (assocGet symMap row.symbol).getD []
    let cf := schedModify cf row.eventDate.toRD emptyTxnSlot id
    match row.eventType with
    | .BUY =>
        let cf := schedModify cf row.eventDate.toRD emptyTxnSlot
          (fun v =>
            let amt := v.transactionAmount.getD 0 -
              row.units * row.pricePerUnit
            { v with transactionAmount := some amt })
        match nextMarketDay hol row.eventDate.toRD QUANTITY_LAG_DAYS with
        | none => .error (.calendarExhausted row.symbol)
        | some qtyDate =>
            let cf := schedModify cf qtyDate emptyTxnSlot
              (fun v => { v with quantity := v.quantity + row.units })
            .ok (assocSet symMap row.symbol cf, metaMap)
    | .SELL =>
        let cf := schedModify cf row.eventDate.toRD emptyTxnSlot
          (fun v =>
            let amt := v.transactionAmount.getD 0 +
              row.units * row.pricePerUnit
            { v with
              quantity := v.quantity - row.units
              transactionAmount := some amt })
        .ok (assocSet symMap row.symbol cf, metaMap)
    | .INVALID => .error (.invalidEventType row.symbol)

/-- The per-symbol coupon/maturity pass of `generate_cashflows`
(lines 188-212): reject a negative quantity at the earliest date, add
coupon slots, add the market-shifted maturity slot, and run
`apply_coupon_and_principal`. -/
def addCouponsAndMaturity (hol : ℤ → Bool) (symbol : String) (cf : Sched)
    (meta : CouponMeta) : Except CashflowFatal Sched :=
  match cf.head? with
  | none => .error (.emptySchedule symbol)
  | some (firstDate, firstSlot) =>
      if firstSlot.quantity < 0 then
        .error (.negativeInitialQuantity symbol)
      else
        match generateCouponDates hol (fromRataDie firstDate)
            meta.maturityDate meta.couponFrequency with
        | none => .error (.couponGeneration symbol)
        | some couponDates =>
            let cf := couponDates.foldl
              (fun s d => schedModify s d emptyCouponSlot id) cf
            match marketShifted hol meta.maturityDate.toRD with
            | none => .error (.calendarExhausted symbol)
            | some shiftedMaturity =>
                let cf := schedModify cf shiftedMaturity maturitySlot id
                match applyCouponAndPrincipal cf meta.couponRate
                    (meta.couponFrequency : ℚ) meta.faceValue with
                | none => .error (.emptySchedule symbol)
                | some cf => .ok cf

/-- `generate_cashflows(joined_df)` (lines 124-212), up to and including
`apply_coupon_and_principal` for every symbol.  The remainder of the
source function (lines 214-276) only reshapes the finished schedules
into pandas dataframes and computes XIRRs for reporting; the claims are
about the schedules, so the model returns the per-symbol schedules. -/
def generateCashflows (hol : ℤ → Bool) (rows : List GsecRow) :
    Except CashflowFatal (List (String × Sched)) :=
  match rows.foldl
      (fun (acc : Except CashflowFatal
          (List (String × Sched) × List (String × CouponMeta))) row =>
        match acc with
        | .error e => .error e
        | .ok st => ingestRow hol st row)
      (.ok ([], [])) with
  | .error e => .error e
  | .ok (symMap, metaMap) =>
      symMap.foldl
        (fun (acc : Except CashflowFatal (List (String × Sched))) p =>
          match acc with
          | .error e => .error e
          | .ok out =>
              match assocGet metaMap p.1 with
              | none => .error (.emptySchedule p.1)
              | some meta =>
                  match addCouponsAndMaturity hol p.1 p.2 meta with
                  | .error e => .error e
                  | .ok cf => .ok (out ++ [(p.1, cf)]))
        (.ok [])

/-- Sum of the quantity deltas of a schedule (the value the running
quantity reaches after the walk of `apply_coupon_and_principal` absorbs
every entry). -/
def schedQtySum (cf : Sched) : ℚ :=
  (cf.map (fun p => p.2.quantity)).sum

/-- Strictly ascending keys: the invariant of a `SortedDict`. -/
def SchedSorted (s : Sched) : Prop :=
  List.Chain' (fun p q : ℤ × CfSlot => p.1 < q.1) s

instance : DecidablePred SchedSorted := fun s =>
  inferInstanceAs
    (Decidable (List.Chain' (fun p q : ℤ × CfSlot => p.1 < q.1) s))

theorem capWalk_total (rate freq fv : ℚ) (lastDt : ℤ) :
    ∀ (cf : List (ℤ × CfSlot)) (run : ℚ) (p : ℤ × CfSlot),
      p ∈ capWalk rate freq fv lastDt run cf →
      p.2.totalCashflow = some (p.2.couponPayment.getD 0 +
        p.2.principalRepayment.getD 0 + p.2.transactionAmount.getD 0) := by
  intro cf
  induction cf with
  | nil => intro run p hp; simp [capWalk] at hp
  | cons x rest ih =>
      intro run p hp
      obtain ⟨dt, v⟩ := x
      simp only [capWalk] at hp
      rcases List.mem_cons.mp hp with rfl | hp
      · by_cases h2 : 0 < run + v.quantity ∧ v.couponDate <;>
          by_cases h3 : dt = lastDt ∧ 0 < run + v.quantity <;>
            simp [h2, h3]
      · exact ih (run + v.quantity) p hp

/-- C4 (invariants): in every schedule produced by
`apply_coupon_and_principal`, every entry's `total_cashflow` equals
`coupon_payment + principal_repayment + transaction_amount`, each
component read as 0 when the key is absent. -/
theorem claim_C4 (cf : Sched) (couponRate couponFrequency faceValue : ℚ)
    (out : Sched)
    (h : applyCouponAndPrincipal cf couponRate couponFrequency faceValue =
      some out) :
    ∀ p ∈ out, p.2.totalCashflow = some (p.2.couponPayment.getD 0 +
      p.2.principalRepayment.getD 0 + p.2.transactionAmount.getD 0) := by
  unfold applyCouponAndPrincipal at h
  cases hL : cf.getLast? with
  | none => rw [hL] at h; exact absurd h (by simp)
  | some q =>
      obtain ⟨lastDt, w⟩ := q
      rw [hL] at h
      injection h with h
      subst h
      exact capWalk_total couponRate couponFrequency faceValue lastDt cf 0

unseal Rat.add Rat.mul Rat.inv Rat.sub in
/-- Witness for C4: the first entry of a built one-BUY, one-maturity
schedule satisfies the total equation; the entry is read back from the
built schedule itself, so the statement is closed. -/
theorem claim_C4_witness :
    ((capWalk 7 2 100 10 0
          [(0, { emptyTxnSlot with quantity := 2 }),
            (10, maturitySlot)]).getD 0
        (0, emptyTxnSlot)).2.totalCashflow =
      some (((capWalk 7 2 100 10 0
              [(0, { emptyTxnSlot with quantity := 2 }),
                (10, maturitySlot)]).getD 0
            (0, emptyTxnSlot)).2.couponPayment.getD 0 +
        ((capWalk 7 2 100 10 0
              [(0, { emptyTxnSlot with quantity := 2 }),
                (10, maturitySlot)]).getD 0
            (0, emptyTxnSlot)).2.principalRepayment.getD 0 +
        ((capWalk 7 2 100 10 0
              [(0, { emptyTxnSlot with quantity := 2 }),
                (10, maturitySlot)]).getD 0
            (0, emptyTxnSlot)).2.transactionAmount.getD 0) :=
  claim_C4 [(0, { emptyTxnSlot with quantity := 2 }), (10, maturitySlot)]
    7 2 100
    (capWalk 7 2 100 10 0
      [(0, { emptyTxnSlot with quantity := 2 }), (10, maturitySlot)])
    (by decide)
    ((capWalk 7 2 100 10 0
          [(0, { emptyTxnSlot with quantity := 2 }),
            (10, maturitySlot)]).getD 0 (0, emptyTxnSlot))
    (by decide)

theorem sorted_le_last (s : Sched) (q : ℤ × CfSlot) :
    SchedSorted s → s.getLast? = some q → ∀ p ∈ s, p.1 ≤ q.1 := by
  induction s with
  | nil => intro _ hl; simp at hl
  | cons x rest ih =>
      intro hs hl p hp
      cases rest with
      | nil =>
          simp only [List.getLast?_singleton, Option.some_inj] at hl
          subst hl
          rcases List.mem_singleton.mp hp with rfl
          exact le_refl _
      | cons y rest' =>
          have hxy : x.1 < y.1 := (List.chain'_cons.mp hs).1
          have hs' : SchedSorted (y :: rest') := (List.chain'_cons.mp hs).2
          rw [List.getLast?_cons_cons] at hl
          rcases List.mem_cons.mp hp with rfl | hp
          · have := ih hs' hl y (List.mem_cons_self y rest')
            omega
          · exact ih hs' hl p hp

theorem sorted_dropLast_ne (s : Sched) (lastDt : ℤ) (v : CfSlot) :
    SchedSorted s → s.getLast? = some (lastDt, v) →
    ∀ p ∈ s.dropLast, p.1 ≠ lastDt := by
  induction s with
  | nil => intro _ _ p hp; simp at hp
  | cons x rest ih =>
      intro hs hl p hp
      cases rest with
      | nil => simp at hp
      | cons y rest' =>
          have hxy : x.1 < y.1 := (List.chain'_cons.mp hs).1
          have hs' : SchedSorted (y :: rest') := (List.chain'_cons.mp hs).2
          rw [List.getLast?_cons_cons] at hl
          rw [List.dropLast_cons₂] at hp
          rcases List.mem_cons.mp hp with rfl | hp
          · have := sorted_le_last (y :: rest') (lastDt, v) hs' hl y
              (List.mem_cons_self y rest')
            simp only at this
            omega
          · exact ih hs' hl p hp

theorem capWalk_last (rate freq fv : ℚ) (lastDt : ℤ) :
    ∀ (cf : List (ℤ × CfSlot)) (run : ℚ),
      (∀ p ∈ cf.dropLast, p.1 ≠ lastDt) →
      (∃ v, cf.getLast? = some (lastDt, v)) →
      0 < run + schedQtySum cf →
      ∃ v', (capWalk rate freq fv lastDt run cf).getLast? =
          some (lastDt, v') ∧
        v'.principalRepayment = some (fv * (run + schedQtySum cf)) ∧
        v'.quantity = 0 := by
  intro cf
  induction cf with
  | nil =>
      intro run _ hlast _
      obtain ⟨v, hv⟩ := hlast
      simp at hv
  | cons x rest ih =>
      intro run hdrop hlast hq
      obtain ⟨dt, v⟩ := x
      cases rest with
      | nil =>
          obtain ⟨w, hw⟩ := hlast
          simp only [List.getLast?_singleton, Option.some_inj] at hw
          have hdt : dt = lastDt := congrArg Prod.fst hw
          subst hdt
          simp only [schedQtySum, List.map_cons, List.map_nil,
            List.sum_cons, List.sum_nil, add_zero] at hq ⊢
          simp only [capWalk, List.getLast?_singleton, Option.some_inj,
            eq_self_iff_true, true_and, hq, if_true]
          split_ifs with h1
          · exact ⟨_, rfl, rfl, rfl⟩
          · exact ⟨_, rfl, rfl, rfl⟩
      | cons y rest' =>
          have hdt : dt ≠ lastDt := by
            apply hdrop (dt, v)
            rw [List.dropLast_cons₂]
            exact List.mem_cons_self _ _
          have hdrop' : ∀ p ∈ (y :: rest').dropLast, p.1 ≠ lastDt := by
            intro p hp
            apply hdrop
            rw [List.dropLast_cons₂]
            exact List.mem_cons_of_mem _ hp
          have hlast' : ∃ w, (y :: rest').getLast? = some (lastDt, w) := by
            obtain ⟨w, hw⟩ := hlast
            rw [List.getLast?_cons_cons] at hw
            exact ⟨w, hw⟩
          have hq' : 0 < (run + v.quantity) + schedQtySum (y :: rest') := by
            simp only [schedQtySum, List.map_cons, List.sum_cons] at hq ⊢
            linarith
          obtain ⟨v', h1, h2, h3⟩ := ih (run + v.quantity) hdrop' hlast' hq'
          have hsum : run + schedQtySum ((dt, v) :: y :: rest') =
              run + v.quantity + schedQtySum (y :: rest') := by
            simp only [schedQtySum, List.map_cons, List.sum_cons]
            ring
          refine ⟨v', ?_, by rw [hsum]; exact h2, h3⟩
          simp only [capWalk] at h1 ⊢
          rw [List.getLast?_cons_cons]
          exact h1

/-- C3 (amended): in a schedule processed by
`apply_coupon_and_principal`, the principal is posted at the final
(latest-dated) entry of the schedule — which is the market-shifted
maturity entry whenever no quantity-settlement date lies beyond it: if
the running quantity reaching that final entry (the sum of all quantity
deltas) is positive, the entry receives
`principal_repayment = face_value × quantity` and its running quantity
is reset to exactly 0. -/
theorem claim_C3 (cf : Sched) (couponRate couponFrequency faceValue : ℚ)
    (out : Sched) (hs : SchedSorted cf) (hq : 0 < schedQtySum cf)
    (h : applyCouponAndPrincipal cf couponRate couponFrequency faceValue =
      some out) :
    ∃ (lastDt : ℤ) (v : CfSlot), out.getLast? = some (lastDt, v) ∧
      v.principalRepayment = some (faceValue * schedQtySum cf) ∧
      v.quantity = 0 := by
  unfold applyCouponAndPrincipal at h
  cases hL : cf.getLast? with
  | none => rw [hL] at h; exact absurd h (by simp)
  | some q =>
      obtain ⟨lastDt, w⟩ := q
      rw [hL] at h
      injection h with h
      subst h
      have hdrop := sorted_dropLast_ne cf lastDt w hs hL
      have hq0 : 0 < (0 : ℚ) + schedQtySum cf := by linarith
      obtain ⟨v', h1, h2, h3⟩ :=
        capWalk_last couponRate couponFrequency faceValue lastDt cf 0
          hdrop ⟨w, hL⟩ hq0
      rw [zero_add] at h2
      exact ⟨lastDt, v', h1, h2, h3⟩

unseal Rat.add Rat.mul Rat.inv Rat.sub in
/-- Witness for C3 (amended) on a two-entry schedule: 2 units held, face
value 100, maturity entry last. -/
theorem claim_C3_witness :
    ∃ (lastDt : ℤ) (v : CfSlot),
      (capWalk 7 2 100 10 0
        [(0, { emptyTxnSlot with quantity := 2 }),
          (10, maturitySlot)]).getLast? = some (lastDt, v) ∧
      v.principalRepayment =
        some (100 * schedQtySum
          [(0, { emptyTxnSlot with quantity := 2 }), (10, maturitySlot)]) ∧
      v.quantity = 0 :=
  claim_C3 [(0, { emptyTxnSlot with quantity := 2 }), (10, maturitySlot)]
    7 2 100 _
    (by simp [SchedSorted, List.chain'_cons, List.chain'_singleton])
    (by decide) (by decide)

/-- Day clamping never bites for a day of month at most 28. -/
theorem addMonths_day (a : Ymd) (k : ℤ) (hd : a.day ≤ 28) :
    (addMonths a k).day = a.day := by
  unfold addMonths
  exact min_eq_left (le_trans hd (daysInMonth_ge_28 _ _))

theorem firstCouponLoop_spec (mpc : ℤ) (start : Ymd) :
    ∀ (fuel : ℕ) (a c : Ymd), a.day ≤ 28 →
      firstCouponLoop mpc start fuel a = some c →
      c.day = a.day ∧ ymdLe c start = false := by
  intro fuel
  induction fuel with
  | zero => intro a c _ h; simp [firstCouponLoop] at h
  | succ fuel ih =>
      intro a c hd h
      unfold firstCouponLoop at h
      by_cases hle : ymdLe a start
      · rw [if_pos hle] at h
        have hd' : (addMonths a mpc).day ≤ 28 := by
          rw [addMonths_day a mpc hd]; exact hd
        obtain ⟨h1, h2⟩ := ih (addMonths a mpc) c hd' h
        rw [addMonths_day a mpc hd] at h1
        exact ⟨h1, h2⟩
      · rw [if_neg hle] at h
        injection h with h
        subst h
        exact ⟨rfl, by simpa using hle⟩

theorem couponCollect_spec (hol : ℤ → Bool) (mpc : ℤ) (maturity : Ymd)
    (D : ℤ) :
    ∀ (fuel : ℕ) (c : Ymd) (ws : List ℤ), c.day = D → D ≤ 28 →
      couponCollect hol mpc maturity fuel c = some ws →
      (∀ w ∈ ws, ∃ cpre : Ymd, cpre.day = D ∧ ymdLt cpre maturity = true ∧
        marketShifted hol cpre.toRD = some w) ∧
      (∀ w, ws.head? = some w → ymdLt c maturity = true ∧
        marketShifted hol c.toRD = some w) := by
  intro fuel
  induction fuel with
  | zero => intro c ws _ _ h; simp [couponCollect] at h
  | succ fuel ih =>
      intro c ws hcD hD h
      unfold couponCollect at h
      by_cases hlt : ymdLt c maturity
      · rw [if_pos hlt] at h
        cases hsh : marketShifted hol c.toRD with
        | none => rw [hsh] at h; exact absurd h (by simp)
        | some w0 =>
            rw [hsh] at h
            cases hrec : couponCollect hol mpc maturity fuel
                (addMonths c mpc) with
            | none => rw [hrec] at h; exact absurd h (by simp)
            | some ws' =>
                rw [hrec] at h
                injection h with h
                subst h
                have hd' : (addMonths c mpc).day = D := by
                  rw [addMonths_day c mpc (hcD ▸ hD)]; exact hcD
                obtain ⟨hall, _⟩ :=
                  ih (addMonths c mpc) ws' hd' hD hrec
                constructor
                · intro w hw
                  rcases List.mem_cons.mp hw with rfl | hw
                  · exact ⟨c, hcD, by simpa using hlt, hsh⟩
                  · exact hall w hw
                · intro w hw
                  simp only [List.head?_cons, Option.some_inj] at hw
                  subst hw
                  exact ⟨by simpa using hlt, rfl⟩
      · rw [if_neg hlt] at h
        injection h with h
        subst h
        exact ⟨by simp, by simp⟩

/-- C5 (amended): for every start date strictly before maturity and
frequency dividing 12, when the maturity day-of-month is at most 28 (so
that `dateutil` month stepping never clamps the day), every date
produced by `generate_coupon_dates` is the market-forward shift of an
anchor-aligned date: the pre-shift date carries exactly the maturity's
day-of-month, lies strictly before `maturity_date`, and the emitted date
is a trading day at or after it; the first emitted date's pre-shift date
moreover lies strictly after `start_date`.  For a maturity day of 29-31
the day-of-month alignment fails (dateutil clamps to the month length;
see the counterexample), which forces the `≤ 28` proviso. -/
theorem claim_C5 (hol : ℤ → Bool) (start maturity : Ymd) (freq : ℕ)
    (ds : List ℤ) (hd28 : maturity.day ≤ 28)
    (hgen : generateCouponDates hol start maturity freq = some ds) :
    (∀ w ∈ ds, ∃ c : Ymd, c.day = maturity.day ∧
        ymdLt c maturity = true ∧ marketShifted hol c.toRD = some w ∧
        isMarketDay hol w = true ∧ c.toRD ≤ w) ∧
    (∀ w, ds.head? = some w → ∃ c : Ymd, c.day = maturity.day ∧
        start.toRD < c.toRD ∧ ymdLt c maturity = true ∧
        marketShifted hol c.toRD = some w ∧ isMarketDay hol w = true ∧
        c.toRD ≤ w ∧ start.toRD < w) := by
  unfold generateCouponDates at hgen
  by_cases hv : Ymd.validB ⟨start.year, maturity.month, maturity.day⟩
  swap
  · rw [if_neg hv] at hgen; exact absurd hgen (by simp)
  rw [if_pos hv] at hgen
  cases hfl : firstCouponLoop ((12 / freq : ℕ) : ℤ) start couponFuel
      ⟨start.year, maturity.month, maturity.day⟩ with
  | none => rw [hfl] at hgen; exact absurd hgen (by simp)
  | some first =>
      rw [hfl] at hgen
      obtain ⟨hfday, hfle⟩ := firstCouponLoop_spec _ start couponFuel
        ⟨start.year, maturity.month, maturity.day⟩ first hd28 hfl
      have hmshift : ∀ (z w : ℤ), marketShifted hol z = some w →
          isMarketDay hol w = true ∧ z ≤ w := by
        intro z w hz
        exact shiftToMarket_spec hol calendarFuel z w hz
      obtain ⟨hall, hhead⟩ := couponCollect_spec hol _ maturity
        maturity.day couponFuel first ds hfday hd28 hgen
      constructor
      · intro w hw
        obtain ⟨c, h1, h2, h3⟩ := hall w hw
        obtain ⟨h4, h5⟩ := hmshift c.toRD w h3
        exact ⟨c, h1, h2, h3, h4, h5⟩
      · intro w hw
        obtain ⟨h2, h3⟩ := hhead w hw
        obtain ⟨h4, h5⟩ := hmshift first.toRD w h3
        have hstart : start.toRD < first.toRD := by
          unfold ymdLe at hfle
          simp only [decide_eq_false_iff_not, not_le] at hfle
          exact hfle
        exact ⟨first, hfday, hstart, h2, h3, h4, h5, by omega⟩

/-- Witness for C5 (amended): semi-annual coupons anchored to a
2028-01-15 maturity, generated from 2026-11-01; the two coupon dates
2027-01-15 and 2027-07-15 are trading days and are emitted unshifted. -/
theorem claim_C5_witness :
    (∀ w ∈ [toRataDie 2027 1 15, toRataDie 2027 7 15], ∃ c : Ymd,
        c.day = (⟨2028, 1, 15⟩ : Ymd).day ∧
        ymdLt c ⟨2028, 1, 15⟩ = true ∧
        marketShifted (fun _ => false) c.toRD = some w ∧
        isMarketDay (fun _ => false) w = true ∧ c.toRD ≤ w) ∧
    (∀ w, ([toRataDie 2027 1 15, toRataDie 2027 7 15] : List ℤ).head? =
        some w → ∃ c : Ymd, c.day = (⟨2028, 1, 15⟩ : Ymd).day ∧
        (⟨2026, 11, 1⟩ : Ymd).toRD < c.toRD ∧
        ymdLt c ⟨2028, 1, 15⟩ = true ∧
        marketShifted (fun _ => false) c.toRD = some w ∧
        isMarketDay (fun _ => false) w = true ∧
        c.toRD ≤ w ∧ (⟨2026, 11, 1⟩ : Ymd).toRD < w) :=
  claim_C5 (fun _ => false) ⟨2026, 11, 1⟩ ⟨2028, 1, 15⟩ 2
    [toRataDie 2027 1 15, toRataDie 2027 7 15] (by decide) (by decide)

/-- Counterexample to C5 as stated: with maturity 2027-12-31 (day-of-month
31) and start 2026-11-01, the stepped pre-shift coupon chain is
Dec 31 2026, Jun 30 2027 (dateutil clamps June to 30 days), then
Dec 30 2027 — so two of the three generated (and here unshifted, all
three being trading days) coupon dates do not fall on the maturity
day-of-month 31. -/
theorem claim_C5_counterexample :
    firstCouponLoop 6 ⟨2026, 11, 1⟩ couponFuel ⟨2026, 12, 31⟩ =
      some ⟨2026, 12, 31⟩ ∧
    addMonths ⟨2026, 12, 31⟩ 6 = ⟨2027, 6, 30⟩ ∧
    (addMonths ⟨2026, 12, 31⟩ 6).day ≠ (⟨2027, 12, 31⟩ : Ymd).day ∧
    generateCouponDates (fun _ => false) ⟨2026, 11, 1⟩ ⟨2027, 12, 31⟩ 2 =
      some [toRataDie 2026 12 31, toRataDie 2027 6 30,
        toRataDie 2027 12 30] ∧
    marketShifted (fun _ => false) (toRataDie 2027 6 30) =
      some (toRataDie 2027 6 30) ∧
    fromRataDie (toRataDie 2027 6 30) = ⟨2027, 6, 30⟩ := by
  decide

def noHolidays : ℤ → Bool := fun _ => false

/-- Schedule-entry accessor over the result of `generate_cashflows`. -/
def schedAt (res : Except CashflowFatal (List (String × Sched)))
    (sym : String) (k : ℤ) : Option CfSlot :=
  match res with
  | .error _ => none
  | .ok m =>
      match assocGet m sym with
      | none => none
      | some cf => schedGet cf k

/-- Transactions of the C3 counterexample: BUY 5 units on 2033-01-10 and
BUY 1 unit on the maturity date 2033-01-14 (a Friday); the second BUY's
quantity settles two trading days later, after maturity. -/
def c3Rows : List GsecRow :=
  [⟨"G1", .BUY, ⟨2033, 1, 10⟩, ⟨2033, 1, 14⟩, 5, 100, 7, 2, 100⟩,
   ⟨"G1", .BUY, ⟨2033, 1, 14⟩, ⟨2033, 1, 14⟩, 1, 100, 7, 2, 100⟩]

unseal Rat.add Rat.mul Rat.inv Rat.sub in
/-- Counterexample to C3 as stated: in the schedule `generate_cashflows`
builds for `c3Rows`, the entry at the market-shifted maturity date
2033-01-14 (a trading day, so unshifted) has running quantity 5 — the
first BUY's settled units — yet carries no `principal_repayment` and its
quantity is not reset to 0: the principal is posted at the later
quantity-settlement entry instead, because `apply_coupon_and_principal`
keys the principal on the schedule's last date. -/
theorem claim_C3_counterexample :
    marketShifted noHolidays (toRataDie 2033 1 14) =
      some (toRataDie 2033 1 14) ∧
    (schedAt (generateCashflows noHolidays c3Rows) "G1"
        (toRataDie 2033 1 14)).map
      (fun v => (v.quantity, v.principalRepayment)) = some (5, none) ∧
    (5 : ℚ) ≠ 0 ∧
    (none : Option ℚ) ≠ some ((100 : ℚ) * 5) := by
  decide

/-- C6 (amended): the negative-quantity guard of `generate_cashflows`
fires exactly on the earliest schedule entry: a fatal
`Negative initial quantity` stop names the processed symbol and implies
the earliest entry's quantity delta is negative, and whenever the
earliest entry's quantity delta is non-negative the engine never stops
with that error for the symbol — even if later deltas drive the running
quantity negative (see the counterexample). -/
theorem claim_C6 (hol : ℤ → Bool) (symbol : String) (cf : Sched)
    (meta : CouponMeta) :
    (∀ s, addCouponsAndMaturity hol symbol cf meta =
        .error (.negativeInitialQuantity s) →
      s = symbol ∧ ∃ p, cf.head? = some p ∧ p.2.quantity < 0) ∧
    (∀ p, cf.head? = some p → 0 ≤ p.2.quantity →
      addCouponsAndMaturity hol symbol cf meta ≠
        .error (.negativeInitialQuantity symbol)) := by
  cases hh : cf.head? with
  | none =>
      have hstep : addCouponsAndMaturity hol symbol cf meta =
          .error (.emptySchedule symbol) := by
        unfold addCouponsAndMaturity
        rw [hh]
      constructor
      · intro s h
        rw [hstep] at h
        exact absurd h (by simp)
      · intro p hp
        simp at hp
  | some q =>
      obtain ⟨firstDate, firstSlot⟩ := q
      by_cases hneg : firstSlot.quantity < 0
      · have hstep : addCouponsAndMaturity hol symbol cf meta =
            .error (.negativeInitialQuantity symbol) := by
          unfold addCouponsAndMaturity
          rw [hh]
          exact if_pos hneg
        constructor
        · intro s h
          rw [hstep] at h
          injection h with h
          injection h with h
          exact ⟨h.symm, (firstDate, firstSlot), rfl, hneg⟩
        · intro p hp hge
          injection hp with hp
          subst hp
          simp only at hge
          intro _
          exact absurd hge (not_le.mpr hneg)
      · have hstep : addCouponsAndMaturity hol symbol cf meta =
            (match generateCouponDates hol (fromRataDie firstDate)
                meta.maturityDate meta.couponFrequency with
              | none => Except.error (CashflowFatal.couponGeneration symbol)
              | some couponDates =>
                  match marketShifted hol meta.maturityDate.toRD with
                  | none =>
                      Except.error (CashflowFatal.calendarExhausted symbol)
                  | some shiftedMaturity =>
                      match applyCouponAndPrincipal
                          (schedModify (couponDates.foldl
                            (fun s d => schedModify s d emptyCouponSlot id)
                            cf) shiftedMaturity maturitySlot id)
                          meta.couponRate (meta.couponFrequency : ℚ)
                          meta.faceValue with
                      | none =>
                          Except.error (CashflowFatal.emptySchedule symbol)
                      | some out => Except.ok out) := by
          unfold addCouponsAndMaturity
          rw [hh]
          exact if_neg hneg
        constructor
        · intro s h
          rw [hstep] at h
          repeat' (split at h)
          all_goals simp_all
        · intro p hp hge h
          rw [hstep] at h
          repeat' (split at h)
          all_goals simp_all

/-- Transactions of the C6 counterexample: BUY 1 unit on 2033-01-10,
then SELL 2 units on 2033-01-12 — after that date the running held
quantity is −1. -/
def c6Rows : List GsecRow :=
  [⟨"G1", .BUY, ⟨2033, 1, 10⟩, ⟨2033, 1, 14⟩, 1, 100, 7, 2, 100⟩,
   ⟨"G1", .SELL, ⟨2033, 1, 12⟩, ⟨2033, 1, 14⟩, 2, 100, 7, 2, 100⟩]

unseal Rat.add Rat.mul Rat.inv Rat.sub in
/-- Counterexample to C6 as stated: on `c6Rows` the running quantity goes
negative on 2033-01-12 (delta +1 from the first BUY's settlement and −2
from the SELL), yet `generate_cashflows` completes without any fatal
stop — the schedule is produced with a running quantity of −1 recorded
at that date. -/
theorem claim_C6_counterexample :
    (generateCashflows noHolidays c6Rows).toOption.isSome = true ∧
    (schedAt (generateCashflows noHolidays c6Rows) "G1"
        (toRataDie 2033 1 12)).map (fun v => v.quantity) =
      some (-1) ∧
    (-1 : ℚ) < 0 := by
  decide

unseal Rat.add Rat.mul Rat.inv Rat.sub in
/-- Witness for C6 (amended): a schedule whose earliest entry has
quantity −1 is rejected with the symbol named, and one whose earliest
entry has quantity 0 is never rejected with that error. -/
theorem claim_C6_witness :
    ("G1" = "G1" ∧ ∃ p, ([((0 : ℤ),
        { emptyTxnSlot with quantity := -1 })] : Sched).head? = some p ∧
      p.2.quantity < 0) ∧
    addCouponsAndMaturity noHolidays "G1"
      [((0 : ℤ), emptyTxnSlot)] ⟨7, 2, 100, ⟨1970, 1, 15⟩⟩ ≠
      .error (.negativeInitialQuantity "G1") := by
  constructor
  · exact (claim_C6 noHolidays "G1"
      [((0 : ℤ), { emptyTxnSlot with quantity := -1 })]
      ⟨7, 2, 100, ⟨1970, 1, 15⟩⟩).1 "G1" (by rfl)
  · exact (claim_C6 noHolidays "G1" [((0 : ℤ), emptyTxnSlot)]
      ⟨7, 2, 100, ⟨1970, 1, 15⟩⟩).2 ((0 : ℤ), emptyTxnSlot) rfl
      (by decide)

/-! ## Yield to maturity (`ytm_calculator.py`, both variants)

Both files define the same inner present-value function `f` and hand it
to `scipy.optimize.newton` (no derivative is passed, so SciPy runs its
secant iteration).  The root finder is external library code, so it is a
parameter `solver : (ℚ → ℚ) → ℚ → Option ℚ` taking the function and the
initial guess; `none` models `RuntimeError` / `OverflowError`. -/

/-- `n_periods = int(np.ceil(years_to_maturity * coupon_frequency))` with
`years_to_maturity = (maturity - settlement).days / 365.0` — the
deliberate ceiling over-count of both files. -/
def couponBondPeriods (settlement maturity : ℤ) (freq : ℕ) : ℤ :=
  ⌈((maturity - settlement : ℤ) : ℚ) * freq / 365⌉

/-- The inner `f(y)` of `__ytm_coupon_bond` in
`src/src/service/gsec/util/ytm_calculator.py` (lines 63-68):
`sum(C / (1 + y/f)^t for t in 1..N) + F / (1 + y/f)^N - price` with
`C = coupon_rate * (face_value / frequency)`.  Python's
`range(1, n+1)` is empty for a non-positive `n`, which `Int.toNat`
reproduces. -/
def couponBondF_gsec (price couponRate faceValue : ℚ)
    (settlement maturity : ℤ) (freq : ℕ) (y : ℚ) : ℚ :=
  let n := (couponBondPeriods settlement maturity freq).toNat
  let C := couponRate * (faceValue / freq)
  ((List.range n).map (fun t => C / (1 + y / freq) ^ (t + 1))).sum +
    faceValue / (1 + y / freq) ^ n - price

/-- The inner `f(y)` of `__ytm_coupon_bond` in
`src/src/service/util/ytm_calculator.py` (lines 39-44) — textually the
same body as the gsec variant. -/
def couponBondF_util (price couponRate faceValue : ℚ)
    (settlement maturity : ℤ) (freq : ℕ) (y : ℚ) : ℚ :=
  let n := (couponBondPeriods settlement maturity freq).toNat
  let C := couponRate * (faceValue / freq)
  ((List.range n).map (fun t => C / (1 + y / freq) ^ (t + 1))).sum +
    faceValue / (1 + y / freq) ^ n - price

/-- `__ytm_coupon_bond` of the gsec util (lines 34-74): guard invalid
inputs to `np.nan` (`none`), otherwise run the solver from initial guess
`coupon_rate`, catching `RuntimeError` / `OverflowError` as `np.nan`. -/
def ytmCouponBond_gsec (solver : (ℚ → ℚ) → ℚ → Option ℚ)
    (price couponRate faceValue : ℚ) (settlement maturity : ℤ)
    (freq : ℕ) : Option ℚ :=
  if price ≤ 0 ∨ couponRate < 0 ∨ maturity ≤ settlement then none
  else
    solver (couponBondF_gsec price couponRate faceValue settlement maturity
      freq) couponRate

/-- `__ytm_coupon_bond` of the plain util (lines 22-48): no guards, and
a solver failure propagates (`none` here means the exception escaped). -/
def ytmCouponBond_util (solver : (ℚ → ℚ) → ℚ → Option ℚ)
    (price couponRate faceValue : ℚ) (settlement maturity : ℤ)
    (freq : ℕ) : Option ℚ :=
  solver (couponBondF_util price couponRate faceValue settlement maturity
    freq) couponRate

/-- The coupon-bearing branch of `calculate_gsec_ytm` (gsec util, lines
94-143): `price` NaN/non-positive and non-positive coupon rate
short-circuit to `np.nan`, otherwise dispatch to `__ytm_coupon_bond`
with `coupon_rate / 100` and scale the result by 100. -/
def calculateGsecYtmCoupon (solver : (ℚ → ℚ) → ℚ → Option ℚ)
    (price couponRate faceValue : ℚ) (settlement maturity : ℤ)
    (freq : ℕ) : Option ℚ :=
  if price ≤ 0 then none
  else if couponRate ≤ 0 then none
  else
    (ytmCouponBond_gsec solver price (couponRate / 100) faceValue
      settlement maturity freq).map (· * 100)

/-- C7 (functional correctness): the gsec `__ytm_coupon_bond` returns
not-a-number exactly when `price ≤ 0`, the coupon rate is negative, the
settlement is at or after maturity, or the root finder fails from
initial guess `coupon_rate`; otherwise — for a root finder that only
reports exact roots — it returns a rate `y` satisfying
`Σ_{t=1..N} C/(1+y/f)^t + F/(1+y/f)^N = price` with
`N = ceil(days/365 × f)` (the deliberate ceiling over-count) and
`C = coupon_rate × face_value / f`. -/
theorem claim_C7 (solver : (ℚ → ℚ) → ℚ → Option ℚ)
    (hsound : ∀ f x0 y, solver f x0 = some y → f y = 0)
    (price couponRate faceValue : ℚ) (settlement maturity : ℤ)
    (freq : ℕ) :
    (ytmCouponBond_gsec solver price couponRate faceValue settlement
        maturity freq = none ↔
      (price ≤ 0 ∨ couponRate < 0 ∨ maturity ≤ settlement ∨
        solver (couponBondF_gsec price couponRate faceValue settlement
          maturity freq) couponRate = none)) ∧
    (∀ y, ytmCouponBond_gsec solver price couponRate faceValue settlement
        maturity freq = some y →
      ((List.range (couponBondPeriods settlement maturity freq).toNat).map
          (fun t => couponRate * (faceValue / freq) /
            (1 + y / freq) ^ (t + 1))).sum +
        faceValue / (1 + y / freq) ^
          (couponBondPeriods settlement maturity freq).toNat = price ∧
      couponBondPeriods settlement maturity freq =
        ⌈((maturity - settlement : ℤ) : ℚ) * freq / 365⌉) := by
  unfold ytmCouponBond_gsec
  by_cases hg : price ≤ 0 ∨ couponRate < 0 ∨ maturity ≤ settlement
  · rw [if_pos hg]
    constructor
    · constructor
      · intro _
        rcases hg with h | h | h
        · exact Or.inl h
        · exact Or.inr (Or.inl h)
        · exact Or.inr (Or.inr (Or.inl h))
      · intro _
        rfl
    · intro y hy
      exact absurd hy (by simp)
  · rw [if_neg hg]
    push_neg at hg
    constructor
    · constructor
      · intro h
        exact Or.inr (Or.inr (Or.inr h))
      · intro h
        rcases h with h | h | h | h
        · exact absurd h (not_le.mpr hg.1)
        · exact absurd h (not_lt.mpr hg.2.1)
        · exact absurd h (not_le.mpr hg.2.2)
        · exact h
    · intro y hy
      have hf := hsound _ _ _ hy
      unfold couponBondF_gsec at hf
      constructor
      · linarith
      · rfl

/-- A root finder that succeeds exactly when the initial guess is an
exact root: the simplest sound instance of the solver parameter. -/
def solverExact (f : ℚ → ℚ) (x0 : ℚ) : Option ℚ :=
  if f x0 = 0 then some x0 else none

theorem solverExact_sound (f : ℚ → ℚ) (x0 y : ℚ)
    (h : solverExact f x0 = some y) : f y = 0 := by
  unfold solverExact at h
  by_cases h0 : f x0 = 0
  · rw [if_pos h0] at h
    injection h with h
    subst h
    exact h0
  · rw [if_neg h0] at h
    exact absurd h (by simp)

unseal Rat.add Rat.mul Rat.inv Rat.sub in
/-- Witness for C7: a two-year par bond (price 100, face 100, coupon
rate 5 percent, semi-annual, 730 days to maturity, hence N = 4): the
initial guess 0.05 is an exact root, the guards pass, and the
present-value identity holds at the returned rate. -/
theorem claim_C7_witness :
    ytmCouponBond_gsec solverExact 100 (1/20) 100 0 730 2 =
      some (1/20) ∧
    ((List.range (couponBondPeriods 0 730 2).toNat).map
        (fun t => (1/20 : ℚ) * (100 / 2) /
          (1 + (1/20 : ℚ) / 2) ^ (t + 1))).sum +
      100 / (1 + (1/20 : ℚ) / 2) ^ (couponBondPeriods 0 730 2).toNat =
      100 := by
  have hrun : ytmCouponBond_gsec solverExact 100 (1/20) 100 0 730 2 =
      some (1/20) := by decide
  have h := claim_C7 solverExact solverExact_sound 100 (1/20) 100 0 730 2
  exact ⟨hrun, (h.2 (1/20) hrun).1⟩

/-- C10 (refinement): the two `__ytm_coupon_bond` implementations build
definitionally equal present-value functions (same equation, same
ceiling period count, same coupon per period) and call the same root
finder from the same initial guess, so on every input where the gsec
guards pass (positive price, non-negative coupon, settlement strictly
before maturity) and the root finder converges, they return equal
values; they differ only in those guards and in exception handling. -/
theorem claim_C10 (solver : (ℚ → ℚ) → ℚ → Option ℚ)
    (price couponRate faceValue : ℚ) (settlement maturity : ℤ)
    (freq : ℕ) (y : ℚ) (hprice : 0 < price) (hrate : 0 ≤ couponRate)
    (hsm : settlement < maturity)
    (hconv : solver (couponBondF_util price couponRate faceValue
      settlement maturity freq) couponRate = some y) :
    ytmCouponBond_util solver price couponRate faceValue settlement
        maturity freq = some y ∧
    ytmCouponBond_gsec solver price couponRate faceValue settlement
        maturity freq = some y ∧
    couponBondF_util price couponRate faceValue settlement maturity freq =
      couponBondF_gsec price couponRate faceValue settlement maturity
        freq := by
  refine ⟨hconv, ?_, rfl⟩
  unfold ytmCouponBond_gsec
  rw [if_neg]
  · exact hconv
  · push_neg
    exact ⟨hprice, hrate, hsm⟩

unseal Rat.add Rat.mul Rat.inv Rat.sub in
/-- Witness for C10 on the same par bond as the C7 witness. -/
theorem claim_C10_witness :
    ytmCouponBond_util solverExact 100 (1/20) 100 0 730 2 =
      some (1/20) ∧
    ytmCouponBond_gsec solverExact 100 (1/20) 100 0 730 2 =
      some (1/20) ∧
    couponBondF_util 100 (1/20) 100 0 730 2 =
      couponBondF_gsec 100 (1/20) 100 0 730 2 :=
  claim_C10 solverExact 100 (1/20) 100 0 730 2 (1/20) (by norm_num)
    (by norm_num) (by norm_num) (by decide)

/-! ## XIRR (`xirr_calculator.py`) and the two-point round trip -/

/-- `scipy.optimize.newton` default absolute tolerance `tol = 1.48e-08`;
with the default `rtol = 0.0` the convergence check
`isclose(p, p0, rtol, atol)` is `|p - p0| ≤ tol`. -/
def newtonTol : ℚ := 148 / 10 ^ 10

/-- The iteration of `scipy.optimize.newton` when a derivative is
supplied, as `xirr` does: return on an exact zero of `f`, raise
(`none`) on a zero derivative, accept once successive iterates are
within `newtonTol`, and raise after the iteration budget (`maxiter`) is
spent.  (In the floating-point source a division by zero produces
`inf`/`nan` and the run then fails by non-convergence; in this exact
model the same inputs fail through the zero-derivative branch — both
end as `none`.) -/
def newtonLoop (f fp : ℚ → ℚ) : ℕ → ℚ → Option ℚ
  | 0, _ => none
  | fuel + 1, p0 =>
      if f p0 = 0 then some p0
      else if fp p0 = 0 then none
      else
        let p := p0 - f p0 / fp p0
        if |p - p0| ≤ newtonTol then some p
        else newtonLoop f fp fuel p

/-- `newton(func=npv, x0=guess, fprime=d_npv, maxiter=100)`. -/
def scipyNewton (f fp : ℚ → ℚ) (x0 : ℚ) : Option ℚ :=
  newtonLoop f fp 100 x0

/-- `npv(rate)` of `xirr` (lines 21-23) specialised to the two-point
cashflow `[-P, F]` whose dates are exactly 365 days apart: the day
counts are `[0.0, 365.0]`, the exponents `days/365` are 0 and 1, and
`npv(r) = -P + F/(1+r)` exactly. -/
def twoPointNpv (P F r : ℚ) : ℚ := -P + F / (1 + r)

/-- `d_npv(rate)` (lines 26-30) on the same cashflow:
the day-0 term vanishes and the day-365 term is
`-(365/365) * F / (1+r)^(365/365+1) = -(F/(1+r)^2)`. -/
def twoPointDnpv (P F r : ℚ) : ℚ := -(F / (1 + r) ^ 2)

/-- `xirr` (lines 12-36) on the two-point cashflow: Newton from guess
0.1 and, on `RuntimeError`, a single retry from guess 0.2; a second
failure propagates. -/
def xirrTwoPoint (P F : ℚ) : Option ℚ :=
  match scipyNewton (twoPointNpv P F) (twoPointDnpv P F) (1/10) with
  | some y => some y
  | none => scipyNewton (twoPointNpv P F) (twoPointDnpv P F) (2/10)

theorem xirrTwoPoint_def (P F : ℚ) :
    xirrTwoPoint P F =
      match scipyNewton (twoPointNpv P F) (twoPointDnpv P F) (1/10) with
      | some y => some y
      | none => scipyNewton (twoPointNpv P F) (twoPointDnpv P F) (2/10) := rfl

theorem newtonLoop_succ (f fp : ℚ → ℚ) (fuel : ℕ) (p0 : ℚ) :
    newtonLoop f fp (fuel + 1) p0 =
      if f p0 = 0 then some p0
      else if fp p0 = 0 then none
      else if |p0 - f p0 / fp p0 - p0| ≤ newtonTol then
        some (p0 - f p0 / fp p0)
      else newtonLoop f fp fuel (p0 - f p0 / fp p0) := rfl

theorem newtonLoop_zero (f fp : ℚ → ℚ) (p0 : ℚ) :
    newtonLoop f fp 0 p0 = none := rfl

attribute [irreducible] newtonLoop

theorem newtonLoop_twoPoint_diverge :
    ∀ (n : ℕ) (r : ℚ), r ≤ -2 →
      newtonLoop (twoPointNpv 3 1) (twoPointDnpv 3 1) n r = none := by
  intro n
  induction n with
  | zero => intro r _; exact newtonLoop_zero _ _ _
  | succ n ih =>
      intro r hr
      have hx1 : 1 + r ≤ -1 := by linarith
      have hxneg : 1 + r < 0 := by linarith
      have hx0 : 1 + r ≠ 0 := ne_of_lt hxneg
      have hfval : twoPointNpv 3 1 r < 0 := by
        unfold twoPointNpv
        have h1 : 1 / (1 + r) < 0 := div_neg_of_pos_of_neg one_pos hxneg
        linarith
      have hfder : twoPointDnpv 3 1 r < 0 := by
        unfold twoPointDnpv
        have h2 : 0 < (1 + r) ^ 2 := pow_two_pos_of_ne_zero hx0
        have h3 : 0 < 1 / (1 + r) ^ 2 := div_pos one_pos h2
        linarith
      have hdiv : twoPointNpv 3 1 r / twoPointDnpv 3 1 r =
          -((1 + r) - 3 * (1 + r) ^ 2) := by
        rw [div_eq_iff (ne_of_lt hfder)]
        unfold twoPointNpv twoPointDnpv
        field_simp
        ring
      have hp : r - twoPointNpv 3 1 r / twoPointDnpv 3 1 r =
          r + ((1 + r) - 3 * (1 + r) ^ 2) := by
        rw [hdiv]
        ring
      have hquad : (1 + r) - 3 * (1 + r) ^ 2 ≤ -4 := by
        nlinarith [sq_nonneg (1 + r + 1)]
      rw [newtonLoop_succ, if_neg (ne_of_lt hfval), if_neg (ne_of_lt hfder),
        hp]
      rw [if_neg]
      · exact ih _ (by linarith)
      · rw [show r + ((1 + r) - 3 * (1 + r) ^ 2) - r =
          (1 + r) - 3 * (1 + r) ^ 2 by ring]
        rw [abs_of_neg (by linarith)]
        unfold newtonTol
        intro hcon
        nlinarith

/-- Counterexample to C9 as stated: for `P = 3`, `F = 1` (both positive)
both Newton guesses diverge — the first iterate from 0.1 is −2.43, the
first iterate from 0.2 is −2.92, and from any rate at most −2 the
iterates run away for the whole budget of 100 iterations — so `xirr`
raises rather than returning `(F−P)/P = −2/3`. -/
theorem claim_C9_counterexample :
    (0 : ℚ) < 3 ∧ (0 : ℚ) < 1 ∧ xirrTwoPoint 3 1 = none := by
  refine ⟨by norm_num, by norm_num, ?_⟩
  have step1 : scipyNewton (twoPointNpv 3 1) (twoPointDnpv 3 1) (1/10) =
      none := by
    unfold scipyNewton
    rw [show (100 : ℕ) = 99 + 1 from rfl, newtonLoop_succ]
    rw [if_neg (by norm_num [twoPointNpv]),
      if_neg (by norm_num [twoPointDnpv])]
    have harg : (1/10 : ℚ) -
        twoPointNpv 3 1 (1/10) / twoPointDnpv 3 1 (1/10) = -243/100 := by
      norm_num [twoPointNpv, twoPointDnpv]
    rw [harg, if_neg (by norm_num [newtonTol, abs_of_pos])]
    exact newtonLoop_twoPoint_diverge 99 _ (by norm_num)
  have step2 : scipyNewton (twoPointNpv 3 1) (twoPointDnpv 3 1) (2/10) =
      none := by
    unfold scipyNewton
    rw [show (100 : ℕ) = 99 + 1 from rfl, newtonLoop_succ]
    rw [if_neg (by norm_num [twoPointNpv]),
      if_neg (by norm_num [twoPointDnpv])]
    have harg : (2/10 : ℚ) -
        twoPointNpv 3 1 (2/10) / twoPointDnpv 3 1 (2/10) = -73/25 := by
      norm_num [twoPointNpv, twoPointDnpv]
    rw [harg, if_neg (by norm_num [newtonTol, abs_of_pos])]
    exact newtonLoop_twoPoint_diverge 99 _ (by norm_num)
  rw [xirrTwoPoint_def, step1, step2]

theorem twoPoint_step (P F : ℚ) (hP : 0 < P) (hF : 0 < F)
    (hlo : 5 * F ≤ 11 * P) (hhi : 11 * P ≤ 15 * F)
    (r : ℚ) (hv : |1 - P / F * (1 + r)| ≤ 1 / 2) :
    (twoPointNpv P F r = 0 → |r - (F - P) / P| ≤ 1 / 1000000) ∧
    twoPointDnpv P F r ≠ 0 ∧
    r - twoPointNpv P F r / twoPointDnpv P F r =
      r + (1 + r) * (1 - P / F * (1 + r)) ∧
    |r + (1 + r) * (1 - P / F * (1 + r)) - r| =
      (1 + r) * |1 - P / F * (1 + r)| ∧
    (1 + r) * |1 - P / F * (1 + r)| ≤ 33 / 10 * |1 - P / F * (1 + r)| ∧
    ((1 + r) * |1 - P / F * (1 + r)| ≤ newtonTol →
      |r + (1 + r) * (1 - P / F * (1 + r)) - (F - P) / P| ≤ 1 / 1000000) ∧
    1 - P / F * (1 + (r + (1 + r) * (1 - P / F * (1 + r)))) =
      (1 - P / F * (1 + r)) ^ 2 := by
  have hPne : P ≠ 0 := ne_of_gt hP
  have hFne : F ≠ 0 := ne_of_gt hF
  have hvl : -(1 / 2) ≤ 1 - P / F * (1 + r) := neg_le_of_abs_le hv
  have hvh : 1 - P / F * (1 + r) ≤ 1 / 2 := le_of_abs_le hv
  have hFPpos : 0 < F / P := div_pos hF hP
  have hFPhi : F / P ≤ 11 / 5 := by
    rw [div_le_div_iff hP (by norm_num : (0:ℚ) < 5)]
    linarith
  have hFPlo : 11 / 15 ≤ F / P := by
    rw [div_le_div_iff (by norm_num : (0:ℚ) < 15) hP]
    linarith
  have hcancel : F / P * (P / F) = 1 := by
    field_simp
  have hxeq : 1 + r = F / P * (1 - (1 - P / F * (1 + r))) := by
    rw [sub_sub_cancel,
      show F / P * (P / F * (1 + r)) = F / P * (P / F) * (1 + r) by ring,
      hcancel, one_mul]
  have hxlo : 11 / 30 ≤ 1 + r := by
    rw [hxeq]
    nlinarith
  have hxhi : 1 + r ≤ 33 / 10 := by
    rw [hxeq]
    nlinarith
  have hxpos : (0 : ℚ) < 1 + r := lt_of_lt_of_le (by norm_num) hxlo
  have hfderlt : twoPointDnpv P F r < 0 := by
    unfold twoPointDnpv
    have h3 : 0 < F / (1 + r) ^ 2 := div_pos hF (pow_pos hxpos 2)
    linarith
  refine ⟨?_, ne_of_lt hfderlt, ?_, ?_, ?_, ?_, ?_⟩
  · intro h0
    unfold twoPointNpv at h0
    have hF' : F = P + P * r := by
      field_simp at h0
      linarith
    have hz : r - (F - P) / P = 0 := by
      rw [sub_eq_zero, eq_div_iff hPne]
      linarith
    rw [hz, abs_zero]
    norm_num
  · have hdiv : twoPointNpv P F r / twoPointDnpv P F r =
        -((1 + r) * (1 - P / F * (1 + r))) := by
      rw [div_eq_iff (ne_of_lt hfderlt)]
      unfold twoPointNpv twoPointDnpv
      field_simp
      ring
    rw [hdiv]
    ring
  · rw [show r + (1 + r) * (1 - P / F * (1 + r)) - r =
      (1 + r) * (1 - P / F * (1 + r)) by ring,
      abs_mul, abs_of_pos hxpos]
  · exact mul_le_mul_of_nonneg_right hxhi (abs_nonneg _)
  · intro htest
    have herrid : r + (1 + r) * (1 - P / F * (1 + r)) - (F - P) / P =
        -(F / P * (1 - P / F * (1 + r)) ^ 2) := by
      field_simp
      ring
    rw [herrid, abs_neg,
      abs_of_nonneg (mul_nonneg (le_of_lt hFPpos) (sq_nonneg _))]
    have hvb : |1 - P / F * (1 + r)| ≤ 30 / 11 * newtonTol := by
      nlinarith [abs_nonneg (1 - P / F * (1 + r))]
    have hsq : (1 - P / F * (1 + r)) ^ 2 ≤ (30 / 11 * newtonTol) ^ 2 := by
      rw [← sq_abs]
      exact pow_le_pow_left (abs_nonneg _) hvb 2
    calc F / P * (1 - P / F * (1 + r)) ^ 2
        ≤ 11 / 5 * (30 / 11 * newtonTol) ^ 2 :=
          mul_le_mul hFPhi hsq (sq_nonneg _) (by norm_num)
      _ ≤ 1 / 1000000 := by norm_num [newtonTol]
  · field_simp
    ring

theorem newtonLoop_twoPoint_conv (P F : ℚ) (hP : 0 < P) (hF : 0 < F)
    (hlo : 5 * F ≤ 11 * P) (hhi : 11 * P ≤ 15 * F) :
    ∀ (n : ℕ) (r : ℚ),
      |1 - P / F * (1 + r)| ≤ 1 / 2 →
      33 / 10 * |1 - P / F * (1 + r)| ≤ newtonTol * 2 ^ n →
      ∃ y, newtonLoop (twoPointNpv P F) (twoPointDnpv P F) (n + 1) r =
          some y ∧ |y - (F - P) / P| ≤ 1 / 1000000 := by
  intro n
  induction n with
  | zero =>
      intro r hv hvtol
      obtain ⟨h0, hfd, hpdiv, htesteq, hxbd, hpass, hvp⟩ :=
        twoPoint_step P F hP hF hlo hhi r hv
      by_cases hf0 : twoPointNpv P F r = 0
      · exact ⟨r, by rw [newtonLoop_succ, if_pos hf0], h0 hf0⟩
      · have htest : (1 + r) * |1 - P / F * (1 + r)| ≤ newtonTol :=
          le_trans hxbd (by simpa using hvtol)
        exact ⟨r + (1 + r) * (1 - P / F * (1 + r)),
          by rw [newtonLoop_succ, if_neg hf0, if_neg hfd, hpdiv, htesteq,
            if_pos htest], hpass htest⟩
  | succ n ih =>
      intro r hv hvtol
      obtain ⟨h0, hfd, hpdiv, htesteq, hxbd, hpass, hvp⟩ :=
        twoPoint_step P F hP hF hlo hhi r hv
      by_cases hf0 : twoPointNpv P F r = 0
      · exact ⟨r, by rw [newtonLoop_succ, if_pos hf0], h0 hf0⟩
      by_cases htest : (1 + r) * |1 - P / F * (1 + r)| ≤ newtonTol
      · exact ⟨r + (1 + r) * (1 - P / F * (1 + r)),
          by rw [newtonLoop_succ, if_neg hf0, if_neg hfd, hpdiv, htesteq,
            if_pos htest], hpass htest⟩
      · have hv2half : |(1 - P / F * (1 + r)) ^ 2| ≤ 1 / 2 := by
          rw [abs_pow]
          nlinarith [abs_nonneg (1 - P / F * (1 + r))]
        have h2nn : (0 : ℚ) ≤ newtonTol * 2 ^ (n + 1) := by
          apply mul_nonneg
          · norm_num [newtonTol]
          · positivity
        have hv2tol : 33 / 10 * |(1 - P / F * (1 + r)) ^ 2| ≤
            newtonTol * 2 ^ n := by
          rw [abs_pow]
          calc 33 / 10 * |1 - P / F * (1 + r)| ^ 2
              = 33 / 10 * |1 - P / F * (1 + r)| * |1 - P / F * (1 + r)| := by
                ring
            _ ≤ newtonTol * 2 ^ (n + 1) * |1 - P / F * (1 + r)| :=
                mul_le_mul_of_nonneg_right hvtol (abs_nonneg _)
            _ ≤ newtonTol * 2 ^ (n + 1) * (1 / 2) :=
                mul_le_mul_of_nonneg_left hv h2nn
            _ = newtonTol * 2 ^ n := by
                rw [pow_succ]
                ring
        obtain ⟨y, hy, herr⟩ := ih (r + (1 + r) * (1 - P / F * (1 + r)))
          (by rw [hvp]; exact hv2half) (by rw [hvp]; exact hv2tol)
        exact ⟨y, by rw [newtonLoop_succ, if_neg hf0, if_neg hfd, hpdiv,
          htesteq, if_neg htest]; exact hy, herr⟩

/-- C9 (corrected): for the two-point cashflow `[-P, F]` dated exactly
365 days apart, `xirr` does not return `(F−P)/P` within 1e-6 for every
`P, F > 0` (see the counterexample, where both Newton runs diverge and
`xirr` raises). The round trip does hold on the domain where the first
guess 0.1 lands in Newton's contraction region, `5F ≤ 11P ≤ 15F`
(one-year return between −4/15 and 6/5): there the solver converges and
the answer is within 1e-6 — indeed within the far tighter Newton
tolerance — of the exact rate `(F−P)/P`. -/
theorem claim_C9 (P F : ℚ) (hP : 0 < P) (hF : 0 < F)
    (hlo : 5 * F ≤ 11 * P) (hhi : 11 * P ≤ 15 * F) :
    ∃ y, xirrTwoPoint P F = some y ∧ |y - (F - P) / P| ≤ 1 / 1000000 := by
  have hPF1 : P / F ≤ 15 / 11 := by
    rw [div_le_div_iff hF (by norm_num : (0:ℚ) < 11)]
    linarith
  have hPF2 : 5 / 11 ≤ P / F := by
    rw [div_le_div_iff (by norm_num : (0:ℚ) < 11) hF]
    linarith
  have hv0 : |1 - P / F * (1 + 1 / 10)| ≤ 1 / 2 := by
    rw [abs_le]
    constructor
    · linarith
    · linarith
  have hv0tol : 33 / 10 * |1 - P / F * (1 + 1 / 10)| ≤ newtonTol * 2 ^ 99 := by
    have h1 : 33 / 10 * |1 - P / F * (1 + 1 / 10)| ≤ 33 / 10 * (1 / 2) :=
      mul_le_mul_of_nonneg_left hv0 (by norm_num)
    have h2 : (33 : ℚ) / 10 * (1 / 2) ≤ newtonTol * 2 ^ 99 := by
      norm_num [newtonTol]
    linarith
  obtain ⟨y, hy, herr⟩ :=
    newtonLoop_twoPoint_conv P F hP hF hlo hhi 99 (1 / 10) hv0 hv0tol
  refine ⟨y, ?_, herr⟩
  have hs : scipyNewton (twoPointNpv P F) (twoPointDnpv P F) (1 / 10) =
      some y := by
    unfold scipyNewton
    rw [show (100 : ℕ) = 99 + 1 from rfl]
    exact hy
  rw [xirrTwoPoint_def, hs]

/-- Witness for C9 (amended) at `P = 100`, `F = 107` (a 7 percent
one-year return, inside the stated domain). -/
theorem claim_C9_witness :
    (0 : ℚ) < 100 ∧ (0 : ℚ) < 107 ∧
    (5 : ℚ) * 107 ≤ 11 * 100 ∧ (11 : ℚ) * 100 ≤ 15 * 107 ∧
    ∃ y, xirrTwoPoint 100 107 = some y ∧
      |y - (107 - 100) / 100| ≤ 1 / 1000000 :=
  ⟨by norm_num, by norm_num, by norm_num, by norm_num,
    claim_C9 100 107 (by norm_num) (by norm_num) (by norm_num)
      (by norm_num)⟩

/-! ## Target-price binary search (`calculate_price_for_target_xirr_binary`)

The XIRR oracle is abstracted as `oracle : ℚ → Option ℚ`: `none` models
a probe whose `xirr` call raises, returns `None`, or returns `nan`
(lines 105-106, 117-120 and 128-131 treat all three identically:
the probe simply does not qualify and the search continues). -/

/-- Python's `round(x, 2)`: nearest multiple of 1/100, ties to even
(banker's rounding), modelled exactly on the rational value. -/
def roundHalfEven (x : ℚ) : ℤ :=
  if x - ⌊x⌋ < 1 / 2 then ⌊x⌋
  else if 1 / 2 < x - ⌊x⌋ then ⌊x⌋ + 1
  else if ⌊x⌋ % 2 = 0 then ⌊x⌋ else ⌊x⌋ + 1

def round2 (x : ℚ) : ℚ := (roundHalfEven (x * 100) : ℚ) / 100

/-- Whether a probe at price `m` qualifies: the oracle produced a value
and it meets the target.  Lines 115-127: `irr is None`/`nan` and
exceptions all take the `right = mid` path, exactly like `irr <
target_xirr`, so one Boolean captures the three-way branch. -/
def qualB (oracle : ℚ → Option ℚ) (target m : ℚ) : Bool :=
  match oracle m with
  | some irr => decide (target ≤ irr)
  | none => false

/-- The same test as a proposition. -/
def qualifies (oracle : ℚ → Option ℚ) (target m : ℚ) : Prop :=
  ∃ irr, oracle m = some irr ∧ target ≤ irr

/-- The `while right - left > tolerance` loop (lines 109-131), with the
iteration count made explicit as fuel: with `0 < tolerance` the Python
loop halves the bracket each pass and any `fuel` with
`end - start ≤ tolerance * 2 ^ fuel` makes the fuel-out branch
unreachable.  A qualifying probe records `best_price = mid` and moves
`left`; any other probe moves `right`. -/
def bsLoop (oracle : ℚ → Option ℚ) (target tol : ℚ) :
    ℕ → ℚ → ℚ → Option ℚ → Option ℚ
  | 0, _, _, best => best
  | fuel + 1, left, right, best =>
      if right - left ≤ tol then best
      else if qualB oracle target ((left + right) / 2) then
        bsLoop oracle target tol fuel ((left + right) / 2) right
          (some ((left + right) / 2))
      else bsLoop oracle target tol fuel left ((left + right) / 2) best

/-- The sequence of midpoints the loop probes, in order. -/
def bsProbes (oracle : ℚ → Option ℚ) (target tol : ℚ) :
    ℕ → ℚ → ℚ → List ℚ
  | 0, _, _ => []
  | fuel + 1, left, right =>
      if right - left ≤ tol then []
      else if qualB oracle target ((left + right) / 2) then
        (left + right) / 2 ::
          bsProbes oracle target tol fuel ((left + right) / 2) right
      else
        (left + right) / 2 ::
          bsProbes oracle target tol fuel left ((left + right) / 2)

/-- `calculate_price_for_target_xirr_binary` (lines 77-138): the end
price is tried first and returned as-is — without rounding — when it
qualifies (line 104); otherwise the loop result, rounded to 2 decimals
when a best price was recorded (lines 132-135). -/
def calculatePriceForTargetXirrBinary (oracle : ℚ → Option ℚ)
    (target start end_ tol : ℚ) (fuel : ℕ) : Option ℚ :=
  if qualB oracle target end_ then some end_
  else (bsLoop oracle target tol fuel start end_ none).map round2

/-- The running `best_price` accumulator over a probe list. -/
def foldBest (oracle : ℚ → Option ℚ) (target : ℚ) (ps : List ℚ)
    (b : Option ℚ) : Option ℚ :=
  ps.foldl (fun acc m => if qualB oracle target m then some m else acc) b

theorem qualB_iff (oracle : ℚ → Option ℚ) (target m : ℚ) :
    qualB oracle target m = true ↔ qualifies oracle target m := by
  unfold qualB qualifies
  cases ho : oracle m with
  | none => simp
  | some irr => simp

theorem bsLoop_succ (oracle : ℚ → Option ℚ) (target tol : ℚ) (fuel : ℕ)
    (l r : ℚ) (b : Option ℚ) :
    bsLoop oracle target tol (fuel + 1) l r b =
      if r - l ≤ tol then b
      else if qualB oracle target ((l + r) / 2) then
        bsLoop oracle target tol fuel ((l + r) / 2) r (some ((l + r) / 2))
      else bsLoop oracle target tol fuel l ((l + r) / 2) b := rfl

theorem bsProbes_succ (oracle : ℚ → Option ℚ) (target tol : ℚ)
    (fuel : ℕ) (l r : ℚ) :
    bsProbes oracle target tol (fuel + 1) l r =
      if r - l ≤ tol then []
      else if qualB oracle target ((l + r) / 2) then
        (l + r) / 2 :: bsProbes oracle target tol fuel ((l + r) / 2) r
      else (l + r) / 2 :: bsProbes oracle target tol fuel l ((l + r) / 2) :=
  rfl

theorem foldBest_cons (oracle : ℚ → Option ℚ) (target m : ℚ)
    (ps : List ℚ) (b : Option ℚ) :
    foldBest oracle target (m :: ps) b =
      foldBest oracle target ps
        (if qualB oracle target m then some m else b) := rfl

theorem foldBest_init (oracle : ℚ → Option ℚ) (target : ℚ) :
    ∀ (ps : List ℚ) (b : Option ℚ),
      (foldBest oracle target ps none = none ∧
        foldBest oracle target ps b = b) ∨
      ∃ x, foldBest oracle target ps none = some x ∧
        foldBest oracle target ps b = some x := by
  intro ps
  induction ps with
  | nil => intro b; exact Or.inl ⟨rfl, rfl⟩
  | cons m ps ih =>
      intro b
      by_cases hq : qualB oracle target m = true
      · rw [foldBest_cons, foldBest_cons, if_pos hq, if_pos hq]
        rcases ih (some m) with ⟨h1, h2⟩ | ⟨x, h1, h2⟩
        · exact Or.inr ⟨m, h2, h2⟩
        · exact Or.inr ⟨x, h2, h2⟩
      · rw [foldBest_cons, foldBest_cons, if_neg hq, if_neg hq]
        exact ih b

theorem bsLoop_eq_foldBest (oracle : ℚ → Option ℚ) (target tol : ℚ) :
    ∀ (fuel : ℕ) (l r : ℚ) (b : Option ℚ),
      bsLoop oracle target tol fuel l r b =
        foldBest oracle target (bsProbes oracle target tol fuel l r) b := by
  intro fuel
  induction fuel with
  | zero => intro l r b; rfl
  | succ fuel ih =>
      intro l r b
      rw [bsLoop_succ, bsProbes_succ]
      by_cases hg : r - l ≤ tol
      · rw [if_pos hg, if_pos hg]
        rfl
      · rw [if_neg hg, if_neg hg]
        by_cases hq : qualB oracle target ((l + r) / 2) = true
        · rw [if_pos hq, if_pos hq, foldBest_cons, if_pos hq]
          exact ih ((l + r) / 2) r (some ((l + r) / 2))
        · rw [if_neg hq, if_neg hq, foldBest_cons, if_neg hq]
          exact ih l ((l + r) / 2) b

theorem foldBest_spec (oracle : ℚ → Option ℚ) (target tol : ℚ)
    (htol : 0 < tol) :
    ∀ (fuel : ℕ) (l r : ℚ),
      (∀ m ∈ bsProbes oracle target tol fuel l r, l < m ∧ m < r) ∧
      ((foldBest oracle target (bsProbes oracle target tol fuel l r)
            none = none ∧
        ∀ m ∈ bsProbes oracle target tol fuel l r,
          ¬ qualifies oracle target m) ∨
       ∃ p, foldBest oracle target (bsProbes oracle target tol fuel l r)
           none = some p ∧
         p ∈ bsProbes oracle target tol fuel l r ∧
         qualifies oracle target p ∧
         ∀ m ∈ bsProbes oracle target tol fuel l r,
           qualifies oracle target m → m ≤ p) := by
  intro fuel
  induction fuel with
  | zero =>
      intro l r
      exact ⟨fun m hm => absurd hm (List.not_mem_nil m),
        Or.inl ⟨rfl, fun m hm => absurd hm (List.not_mem_nil m)⟩⟩
  | succ fuel ih =>
      intro l r
      by_cases hg : r - l ≤ tol
      · rw [bsProbes_succ, if_pos hg]
        exact ⟨fun m hm => absurd hm (List.not_mem_nil m),
          Or.inl ⟨rfl, fun m hm => absurd hm (List.not_mem_nil m)⟩⟩
      · have hlr : tol < r - l := not_le.mp hg
        have hm1 : l < (l + r) / 2 := by linarith
        have hm2 : (l + r) / 2 < r := by linarith
        by_cases hq : qualB oracle target ((l + r) / 2) = true
        · obtain ⟨ihr, ihc⟩ := ih ((l + r) / 2) r
          have hqual : qualifies oracle target ((l + r) / 2) :=
            (qualB_iff oracle target ((l + r) / 2)).mp hq
          rw [bsProbes_succ, if_neg hg, if_pos hq]
          refine ⟨?_, ?_⟩
          · intro m hm
            rcases List.mem_cons.mp hm with hm | hm
            · exact hm ▸ ⟨hm1, hm2⟩
            · exact ⟨lt_trans hm1 (ihr m hm).1, (ihr m hm).2⟩
          · rw [foldBest_cons, if_pos hq]
            rcases foldBest_init oracle target
                (bsProbes oracle target tol fuel ((l + r) / 2) r)
                (some ((l + r) / 2)) with ⟨hn, hsm⟩ | ⟨x, hx, hsm⟩
            · right
              refine ⟨(l + r) / 2, hsm, List.mem_cons_self _ _, hqual, ?_⟩
              intro m hm hqm
              rcases List.mem_cons.mp hm with hm | hm
              · exact le_of_eq hm
              · rcases ihc with ⟨heq, hnone⟩ | ⟨p, hp, hpm, hq2, hmax⟩
                · exact absurd hqm (hnone m hm)
                · rw [hn] at hp
                  exact absurd hp (by simp)
            · rcases ihc with ⟨heq, hnone⟩ | ⟨p, hp, hpm, hq2, hmax⟩
              · rw [heq] at hx
                exact absurd hx (by simp)
              · have hxp : x = p := by
                  rw [hp] at hx
                  exact (Option.some_inj.mp hx).symm
                right
                refine ⟨p, by rw [hsm, hxp], List.mem_cons_of_mem _ hpm,
                  hq2, ?_⟩
                intro m hm hqm
                rcases List.mem_cons.mp hm with hm | hm
                · exact hm ▸ le_of_lt (ihr p hpm).1
                · exact hmax m hm hqm
        · obtain ⟨ihr, ihc⟩ := ih l ((l + r) / 2)
          have hnqmid : ¬ qualifies oracle target ((l + r) / 2) :=
            fun hc => hq ((qualB_iff oracle target ((l + r) / 2)).mpr hc)
          rw [bsProbes_succ, if_neg hg, if_neg hq]
          refine ⟨?_, ?_⟩
          · intro m hm
            rcases List.mem_cons.mp hm with hm | hm
            · exact hm ▸ ⟨hm1, hm2⟩
            · exact ⟨(ihr m hm).1, lt_trans (ihr m hm).2 hm2⟩
          · rw [foldBest_cons, if_neg hq]
            rcases ihc with ⟨heq, hnone⟩ | ⟨p, hp, hpm, hq2, hmax⟩
            · left
              refine ⟨heq, ?_⟩
              intro m hm
              rcases List.mem_cons.mp hm with hm | hm
              · exact hm ▸ hnqmid
              · exact hnone m hm
            · right
              refine ⟨p, hp, List.mem_cons_of_mem _ hpm, hq2, ?_⟩
              intro m hm hqm
              rcases List.mem_cons.mp hm with hm | hm
              · exact absurd (hm ▸ hqm) hnqmid
              · exact hmax m hm hqm

/-- C8 (corrected): with a positive tolerance (and the loop's iteration
count written as fuel — any fuel at least log2 of bracket width over
tolerance reproduces the Python loop exactly), the search returns the
end price itself, NOT rounded, whenever the end price qualifies;
otherwise it returns the highest qualifying probed midpoint rounded to
2 decimals (ties to even), or nothing when no probe qualifies.  An
oracle failure (`None`, `nan` or an exception) at a probe only makes
that probe non-qualifying: the search continues.  The original claim's
"returns a price rounded to 2 decimal places" is wrong on the
end-price path — see the counterexample. -/
theorem claim_C8 (oracle : ℚ → Option ℚ) (target start end_ tol : ℚ)
    (fuel : ℕ) (htol : 0 < tol) :
    (qualifies oracle target end_ →
      calculatePriceForTargetXirrBinary oracle target start end_ tol fuel =
        some end_) ∧
    (¬ qualifies oracle target end_ →
      (calculatePriceForTargetXirrBinary oracle target start end_ tol
          fuel = none ∧
        ∀ m ∈ bsProbes oracle target tol fuel start end_,
          ¬ qualifies oracle target m) ∨
      ∃ p, calculatePriceForTargetXirrBinary oracle target start end_ tol
          fuel = some (round2 p) ∧
        p ∈ bsProbes oracle target tol fuel start end_ ∧
        qualifies oracle target p ∧ start < p ∧ p < end_ ∧
        ∀ m ∈ bsProbes oracle target tol fuel start end_,
          qualifies oracle target m → m ≤ p) := by
  constructor
  · intro hqe
    unfold calculatePriceForTargetXirrBinary
    rw [if_pos ((qualB_iff oracle target end_).mpr hqe)]
  · intro hnq
    have hb : ¬ (qualB oracle target end_ = true) :=
      fun h => hnq ((qualB_iff oracle target end_).mp h)
    obtain ⟨hrange, hcase⟩ :=
      foldBest_spec oracle target tol htol fuel start end_
    rcases hcase with ⟨heq, hnone⟩ | ⟨p, hp, hmem, hq2, hmax⟩
    · left
      refine ⟨?_, hnone⟩
      unfold calculatePriceForTargetXirrBinary
      rw [if_neg hb, bsLoop_eq_foldBest, heq]
      rfl
    · right
      refine ⟨p, ?_, hmem, hq2, (hrange p hmem).1, (hrange p hmem).2,
        hmax⟩
      unfold calculatePriceForTargetXirrBinary
      rw [if_neg hb, bsLoop_eq_foldBest, hp]
      rfl

/-- Counterexample to C8 as stated: an oracle that always reports XIRR
1 against target 0 with end price 1/3 hits the end-price path (line
104: `return end`), which skips the 2-decimal rounding — the function
returns exactly 1/3, which is not representable to 2 decimal places
(`round(1/3, 2) = 0.33 ≠ 1/3`). -/
theorem claim_C8_counterexample :
    calculatePriceForTargetXirrBinary (fun _ => some 1) 0 0 (1 / 3)
      (1 / 10) 10 = some (1 / 3) ∧ round2 (1 / 3) ≠ 1 / 3 := by
  constructor
  · unfold calculatePriceForTargetXirrBinary
    rw [if_pos (by norm_num [qualB] :
      qualB (fun _ => some (1 : ℚ)) 0 (1 / 3) = true)]
  · have hfl : ⌊(1 : ℚ) / 3 * 100⌋ = 33 :=
      Int.floor_eq_iff.mpr (by norm_num)
    simp only [round2, roundHalfEven, hfl]
    norm_num

/-- Witness for C8 (amended) with the constant oracle reporting XIRR 1,
target 0, the Python default bracket 80..110, tolerance 1/10 and fuel
9 (2^9 > 300 halvings suffice for width 30 at tolerance 1/10). -/
theorem claim_C8_witness :
    (0 : ℚ) < 1 / 10 ∧
    ((qualifies (fun _ => some 1) 0 110 →
        calculatePriceForTargetXirrBinary (fun _ => some 1) 0 80 110
          (1 / 10) 9 = some 110) ∧
      (¬ qualifies (fun _ => some 1) 0 110 →
        (calculatePriceForTargetXirrBinary (fun _ => some 1) 0 80 110
            (1 / 10) 9 = none ∧
          ∀ m ∈ bsProbes (fun _ => some 1) 0 (1 / 10) 9 80 110,
            ¬ qualifies (fun _ => some 1) 0 m) ∨
        ∃ p, calculatePriceForTargetXirrBinary (fun _ => some 1) 0 80 110
            (1 / 10) 9 = some (round2 p) ∧
          p ∈ bsProbes (fun _ => some 1) 0 (1 / 10) 9 80 110 ∧
          qualifies (fun _ => some 1) 0 p ∧ 80 < p ∧ p < 110 ∧
          ∀ m ∈ bsProbes (fun _ => some 1) 0 (1 / 10) 9 80 110,
            qualifies (fun _ => some 1) 0 m → m ≤ p)) :=
  ⟨by norm_num,
    claim_C8 (fun _ => some 1) 0 80 110 (1 / 10) 9 (by norm_num)⟩

end BugsyBytes
